import Mathlib

/-!
Verification of the grouping / cross-seed filtering core of `seedable.py`,
a Torznab proxy that filters metasearch results down to cross-seedable ones.

The Python source is embedded shallowly:

* result dictionaries become the `SearchResult` structure; fields that the
  code reads with `dict.get(key, default)` are `Option`-valued, and the
  defaulting is written `Option.getD default` exactly where the source
  defaults them;
* the module-level configuration (`MIN_DUPLICATES`, `PRIVATE_TRACKERS`)
  becomes an explicit `Config` value threaded through the functions;
* Python float arithmetic in `get_size_bucket` is modelled as exact
  rational arithmetic, and Python `round` as round-half-to-even
  (`roundHalfEven` below);
* the `re.sub` calls of `normalize_title` are implemented character by
  character with the semantics of the concrete patterns involved
  (maximal runs, leftmost non-overlapping matches, ASCII word and
  whitespace classes).
-/

namespace Seedable

/-- One search result returned by the aggregator (a Python dict in the
source).  The core reads the fields with `result.get(...)`, so each is
optional here; `extra` stands for the passthrough metadata the core never
inspects.  `trackerCounts` models the `_tracker_counts` entry that
`filter_cross_seedable` attaches (absent on raw results). -/
structure SearchResult where
  title : Option String
  size : Option Nat
  indexer : Option String
  link : Option String
  trackerCounts : Option (Nat × Nat)
  extra : List (String × String)
deriving DecidableEq

/-- The configuration the filter reads from the environment:
`MIN_DUPLICATES` and `PRIVATE_TRACKERS` (a set of tracker names, modelled
as a list; Python set truthiness is `≠ []`). -/
structure Config where
  minDuplicates : Nat
  privateTrackers : List String
deriving DecidableEq

/-! ### Character classes (ASCII fragments of the Python regex classes) -/

/-- The class `[._-]` of the first `re.sub` in `normalize_title`. -/
def isDotSep (c : Char) : Bool :=
  c == '.' || c == '_' || c == '-'

/-- Python `\s` (ASCII portion): space, tab, newline, carriage return,
vertical tab, form feed. -/
def isSpacePy (c : Char) : Bool :=
  c == ' ' || c == '\t' || c == '\n' || c == '\r' || c == '\x0B' || c == '\x0C'

/-- Python `\w` (ASCII portion): letters, digits, underscore. -/
def isWordPy (c : Char) : Bool :=
  c.isAlpha || c.isDigit || c == '_'

/-- A character of the combined separator class of the claims: `[._-]`
or whitespace. -/
def isSepAll (c : Char) : Bool :=
  isDotSep c || isSpacePy c

/-! ### `normalize_title` (seedable.py lines 81-98) -/

/-- `re.sub(cls+, ' ', s)` for a character class `p`: every maximal run of
`p`-characters is replaced by a single space. -/
def collapseRuns (p : Char → Bool) : List Char → List Char
  | [] => []
  | [c] => if p c then [' '] else [c]
  | c :: d :: rest =>
      if p c && p d then collapseRuns p (d :: rest)
      else (if p c then ' ' else c) :: collapseRuns p (d :: rest)

/-- Match a literal at the head of the input, returning the remainder. -/
def matchLit : List Char → List Char → Option (List Char)
  | [], s => some s
  | c :: ls, d :: s => if c == d then matchLit ls s else none
  | _ :: _, [] => none

/-- Match one-or-more characters of class `p` (the maximal run), returning
the remainder; fails if the head is not in `p`.  This is exactly what a
greedy `p+` does inside the boilerplate pattern, because the classes on
either side of it are disjoint, so backtracking never shortens the run. -/
def dropRun1 (p : Char → Bool) (s : List Char) : Option (List Char) :=
  match s with
  | c :: rest => if p c then some (rest.dropWhile p) else none
  | [] => none

/-- The alternation `(org|com|net)` of the boilerplate pattern. -/
def matchTail (s : List Char) : Option (List Char) :=
  match matchLit ['o', 'r', 'g'] s with
  | some r => some r
  | none =>
    match matchLit ['c', 'o', 'm'] s with
    | some r => some r
    | none => matchLit ['n', 'e', 't'] s

/-- The word boundary `\b` after the final literal: end of input or a
non-word character. -/
def boundaryAfter (s : List Char) : Bool :=
  match s with
  | [] => true
  | c :: _ => !isWordPy c

/-- Try to match `www\s+\w+\s+(org|com|net)\b` at the head of `s`,
returning the remainder after the match.  The leading `\b` is checked by
the caller (`scrubGo`), which only attempts a match when the previous
character is not a word character. -/
def tryMatch (s : List Char) : Option (List Char) :=
  (matchLit ['w', 'w', 'w'] s).bind fun r1 =>
    (dropRun1 isSpacePy r1).bind fun r2 =>
      (dropRun1 isWordPy r2).bind fun r3 =>
        (dropRun1 isSpacePy r3).bind fun r4 =>
          (matchTail r4).bind fun r5 =>
            if boundaryAfter r5 then some r5 else none

/-- The scan of `re.sub(r'\bwww\s+\w+\s+(org|com|net)\b', '', s)`:
leftmost, non-overlapping matches are removed; scanning resumes right
after each match.  `w` records whether the previous character was a word
character (so `\b` holds exactly when `w = false`).  The first argument is
recursion fuel, initialised to the length of the input; every step
consumes at least one input character, so the fuel never runs out
(`scrubGo_fuel` below). -/
def scrubGo : Nat → Bool → List Char → List Char
  | 0, _, s => s
  | _ + 1, _, [] => []
  | fuel + 1, w, c :: rest =>
    if w then c :: scrubGo fuel (isWordPy c) rest
    else
      match tryMatch (c :: rest) with
      | some rem => scrubGo fuel true rem
      | none => c :: scrubGo fuel (isWordPy c) rest

/-- Remove all occurrences of the `www <word> (org|com|net)` boilerplate. -/
def scrubBoiler (s : List Char) : List Char :=
  scrubGo s.length false s

/-- `scrubGo` with its canonical fuel (the input length); `scrubBoiler`
is `scrubF false` by definition, and `scrubGo_fuel` below shows the fuel
is irrelevant as long as it is at least the input length. -/
def scrubF (w : Bool) (s : List Char) : List Char :=
  scrubGo s.length w s

/-- Python `str.strip()`: drop leading and trailing whitespace. -/
def pyStrip (s : List Char) : List Char :=
  ((s.dropWhile isSpacePy).reverse.dropWhile isSpacePy).reverse

/-- `normalize_title` (seedable.py lines 81-98): lowercase, collapse
`[._-]+` runs to single spaces, remove `\bwww\s+\w+\s+(org|com|net)\b`
boilerplate, collapse `\s+` runs to single spaces, strip.  Python
`str.lower` is modelled on its ASCII fragment by `Char.toLower`. -/
def normalize_title (title : String) : String :=
  let s1 := title.data.map Char.toLower
  let s2 := collapseRuns isDotSep s1
  let s3 := scrubBoiler s2
  let s4 := collapseRuns isSpacePy s3
  String.mk (pyStrip s4)

/-! ### `get_size_bucket` (seedable.py lines 130-147) -/

/-- Python `round` on a (model) rational: round half to even. -/
def roundHalfEven (x : ℚ) : ℤ :=
  if x - ⌊x⌋ = 1 / 2 then (if ⌊x⌋ % 2 = 0 then ⌊x⌋ else ⌊x⌋ + 1) else round x

/-- The magnitude-dependent `bucket_size` of the source: 10 below 100 MB,
50 below 1000 MB, 100 from 1000 MB up. -/
def bucketWidth (size_bytes : Nat) : ℤ :=
  let size_mb : ℚ := (size_bytes : ℚ) / (1024 * 1024)
  if size_mb < 100 then 10 else if size_mb < 1000 then 50 else 100

/-- `get_size_bucket` (seedable.py lines 130-147).  The Python float
division `size_bytes / (1024 * 1024)` is modelled as exact rational
division.  The unused `tolerance_percent` parameter of the source is
omitted (the body never reads it). -/
def get_size_bucket (size_bytes : Nat) : ℤ :=
  let size_mb : ℚ := (size_bytes : ℚ) / (1024 * 1024)
  roundHalfEven (size_mb / (bucketWidth size_bytes : ℚ)) * bucketWidth size_bytes

/-! ### `group_results` (seedable.py lines 150-168) -/

/-- The grouping key `(normalize_title(title), get_size_bucket(size))`,
with the source's defaults for missing fields. -/
abbrev GroupKey := String × ℤ

def groupKey (r : SearchResult) : GroupKey :=
  (normalize_title (r.title.getD ""), get_size_bucket (r.size.getD 0))

/-- One step of `groups[key].append(result)` on an insertion-ordered
dict, modelled as an association list: append to the entry with this key,
or add a new entry at the end. -/
def insertGroup (key : GroupKey) (r : SearchResult) :
    List (GroupKey × List SearchResult) → List (GroupKey × List SearchResult)
  | [] => [(key, [r])]
  | (k, rs) :: rest =>
      if k = key then (k, rs ++ [r]) :: rest else (k, rs) :: insertGroup key r rest

/-- `group_results` (seedable.py lines 150-168): a single left-to-right
pass over the results, appending each to the group of its key.  The
`defaultdict` preserves key insertion order, modelled by the association
list. -/
def group_results (results : List SearchResult) : List (GroupKey × List SearchResult) :=
  results.foldl (fun acc r => insertGroup (groupKey r) r acc) []

/-! ### `filter_cross_seedable` (seedable.py lines 171-216) -/

/-- The number of group members whose `indexer` (default `''`) lies in
`PRIVATE_TRACKERS` — the `private_count` loop of the source. -/
def privateCount (cfg : Config) (grp : List SearchResult) : Nat :=
  (grp.filter fun r => decide (r.indexer.getD "" ∈ cfg.privateTrackers)).length

/-- The `public_count` of the source: members whose indexer is not in the
private set. -/
def publicCount (cfg : Config) (grp : List SearchResult) : Nat :=
  (grp.filter fun r => !decide (r.indexer.getD "" ∈ cfg.privateTrackers)).length

/-- Attach `_tracker_counts` to a result (the in-place mutation of the
source, modelled as an augmented copy). -/
def annotate (pc qc : Nat) (r : SearchResult) : SearchResult :=
  { r with trackerCounts := some (pc, qc) }

/-- The body of the `for group_key, group_results in groups.items()` loop:
what one group contributes to the output list. -/
def processGroup (cfg : Config) (grp : List SearchResult) : List SearchResult :=
  if grp.length < cfg.minDuplicates then []
  else if cfg.privateTrackers ≠ [] ∧ privateCount cfg grp = 0 then []
  else grp.map (annotate (privateCount cfg grp) (publicCount cfg grp))

/-- Concatenation of the images of `f` (the flattening `append` loop). -/
def flatMapL (f : α → List β) : List α → List β
  | [] => []
  | a :: t => f a ++ flatMapL f t

/-- `filter_cross_seedable` (seedable.py lines 171-216): iterate the
groups in insertion order, dropping those below `MIN_DUPLICATES`, dropping
public-only groups when private trackers are configured, and flattening
the annotated survivors. -/
def filter_cross_seedable (cfg : Config)
    (groups : List (GroupKey × List SearchResult)) : List SearchResult :=
  flatMapL (fun p => processGroup cfg p.2) groups

/-! ### Deduplication (seedable.py lines 592-603) -/

/-- The dedup loop: `url = result.get('link', ''); if url and url not in
seen_urls: seen_urls.add(url); unique_results.append(result)`. -/
def dedupScan (seen : List String) : List SearchResult → List SearchResult
  | [] => []
  | r :: rest =>
      let url := r.link.getD ""
      if url ≠ "" ∧ url ∉ seen then r :: dedupScan (url :: seen) rest
      else dedupScan seen rest

/-- The full dedup step of `torznab_api`, including the final
`if len(unique_results) < len(filtered_results): filtered_results =
unique_results` (when the lengths agree the lists are identical, see
`dedupResults_eq_scan`). -/
def dedupResults (l : List SearchResult) : List SearchResult :=
  let unique := dedupScan [] l
  if unique.length < l.length then unique else l

/-! ### Pagination (seedable.py lines 612-617) -/

/-- `filtered_results[offset:offset + limit]` for non-negative `offset`
and `limit` (the claim's range; Python clamps the slice to the list
bounds exactly like `drop`/`take`).  No cap is applied to `limit`
anywhere in the source. -/
def paginate (l : List SearchResult) (offset limit : Nat) : List SearchResult :=
  (l.drop offset).take limit

/-! ### `get_cache_key` (seedable.py lines 54-68) -/

/-- The request parameters, a Python dict of strings. -/
abbrev Params := List (String × String)

/-- `params.get(k, '')`. -/
def pGet (p : Params) (k : String) : String :=
  (p.lookup k).getD ""

/-- The `cache_params` dict literal: exactly the seven search-intent
fields, each defaulted to the empty string. -/
def cacheParams (p : Params) : List (String × String) :=
  [("q", pGet p "q"), ("cat", pGet p "cat"), ("imdbid", pGet p "imdbid"),
   ("tvdbid", pGet p "tvdbid"), ("season", pGet p "season"), ("ep", pGet p "ep"),
   ("t", pGet p "t")]

/-- Python tuple comparison on `(key, value)` pairs, as used by
`sorted(cache_params.items())` (keys first, values break ties). -/
def pairLe (a b : String × String) : Bool :=
  decide (a.1 < b.1) || (a.1 == b.1 && !decide (b.2 < a.2))

def insertSorted (x : String × String) :
    List (String × String) → List (String × String)
  | [] => [x]
  | y :: t => if pairLe x y then x :: y :: t else y :: insertSorted x t

/-- `sorted(...)` on the item list (insertion sort; the seven keys are
distinct, so only the key ordering matters). -/
def sortPairs : List (String × String) → List (String × String)
  | [] => []
  | x :: t => insertSorted x (sortPairs t)

/-- A single-quote character, written by code point to keep the source
free of quote literals. -/
def sq : String := String.mk [Char.ofNat 39]

/-- Python `repr` of one of these strings, as it appears inside
`str(sorted(cache_params.items()))`.  The escaping of special characters
inside the value is omitted: the claims only use that equal field values
yield equal reprs. -/
def pyReprStr (s : String) : String := sq ++ s ++ sq

/-- `str(sorted(cache_params.items()))`: the printed list of pairs. -/
def keyString (ps : List (String × String)) : String :=
  "[" ++ String.intercalate ", "
    (ps.map fun kv => "(" ++ pyReprStr kv.1 ++ ", " ++ pyReprStr kv.2 ++ ")") ++ "]"

/-- `get_cache_key` (seedable.py lines 54-68).  The final
`hashlib.md5(...).hexdigest()` is a fixed deterministic function of the
key string; it is abstracted as the parameter `md5hex`, which every claim
about the fingerprint quantifies over. -/
def get_cache_key (md5hex : String → String) (params : Params) : String :=
  md5hex (keyString (sortPairs (cacheParams params)))

/-! ### Derived notions used only in the statements of the claims -/

/-- The first-occurrence ordering of the distinct elements of a list
(how an insertion-ordered dict orders its keys). -/
def firstOccurs {α : Type} [DecidableEq α] : List α → List α
  | [] => []
  | k :: rest => k :: firstOccurs (rest.filter fun x => decide (x ≠ k))
termination_by l => l.length
decreasing_by
  simpa using Nat.lt_succ_of_le (List.length_filter_le _ _)

/-- Two character lists that differ only in the style and length of the
separator runs of class `P` between (and around) the same non-`P`
characters.  `chr` matches a shared non-separator character, `run`
matches a nonempty `P`-run in each list. -/
inductive RunEquiv (P : Char → Bool) : List Char → List Char → Prop
  | nil : RunEquiv P [] []
  | chr {x y : List Char} (c : Char) (hc : P c = false) (h : RunEquiv P x y) :
      RunEquiv P (c :: x) (c :: y)
  | run {x y : List Char} (a b : List Char) (ha : a ≠ []) (hpa : ∀ c ∈ a, P c = true)
      (hb : b ≠ []) (hpb : ∀ c ∈ b, P c = true) (h : RunEquiv P x y) :
      RunEquiv P (a ++ x) (b ++ y)

/-- The maximal non-whitespace chunks of a string, in order. -/
def wordsOf : List Char → List (List Char)
  | [] => []
  | c :: rest =>
      if isSpacePy c then wordsOf (rest.dropWhile isSpacePy)
      else (c :: rest.takeWhile fun d => !isSpacePy d) ::
        wordsOf (rest.dropWhile fun d => !isSpacePy d)
termination_by s => s.length
decreasing_by
  · simpa using Nat.lt_succ_of_le (List.dropWhile_sublist _).length_le
  · simpa using Nat.lt_succ_of_le (List.dropWhile_sublist _).length_le

/-- Join chunks with single spaces (the canonical form produced by
collapsing whitespace runs and stripping the ends). -/
def joinWords : List (List Char) → List Char
  | [] => []
  | [w] => w
  | w :: w2 :: rest => w ++ ' ' :: joinWords (w2 :: rest)

/-- Drop trailing whitespace (the right half of `str.strip()`). -/
def dropEndWS (z : List Char) : List Char :=
  (z.reverse.dropWhile isSpacePy).reverse

/-- A result value with no fields set, used in concrete instances. -/
def blankResult : SearchResult :=
  ⟨none, none, none, none, none, []⟩

/-- A result whose download link is present but empty. -/
def emptyLinkResult : SearchResult :=
  ⟨none, none, none, some "", none, []⟩

/-- A result with a non-empty download link. -/
def linkedResult : SearchResult :=
  ⟨none, none, none, some "magnet:x", none, []⟩

end Seedable

namespace Seedable

/-! ## General helper lemmas -/

theorem flatMapL_append (f : α → List β) (l₁ l₂ : List α) :
    flatMapL f (l₁ ++ l₂) = flatMapL f l₁ ++ flatMapL f l₂ := by
  induction l₁ with
  | nil => rfl
  | cons a t ih => simp [flatMapL, ih]

theorem mem_flatMapL {f : α → List β} {b : β} {l : List α} :
    b ∈ flatMapL f l ↔ ∃ a ∈ l, b ∈ f a := by
  induction l with
  | nil => simp [flatMapL]
  | cons a t ih => simp [flatMapL, ih]

theorem flatMapL_map (f : β → List γ) (g : α → β) (l : List α) :
    flatMapL f (l.map g) = flatMapL (fun a => f (g a)) l := by
  induction l with
  | nil => rfl
  | cons a t ih => simp [flatMapL, ih]

theorem length_filter_add_not (p : α → Bool) (l : List α) :
    (l.filter p).length + (l.filter fun a => !p a).length = l.length := by
  induction l with
  | nil => rfl
  | cons a t ih =>
    by_cases h : p a <;> simp [List.filter_cons, h, ih] <;> omega

/-! ## Claim C1 — pagination -/

/-- C1, counterexample.  The claim says the effective limit is capped at
100 so no page ever holds more than 100 results; the source applies no
cap (`limit = int(params.get('limit', 100))` straight into the slice), so
a request with `limit = 101` against 101 results returns all 101. -/
theorem c1_counterexample :
    ¬ (paginate (List.replicate 101 blankResult) 0 101).length ≤ 100 := by
  simp [paginate]

/-- C1, amended claim: the returned page is the contiguous slice
`[offset, offset+limit)` of the list, clamped to the list bounds, with
the limit used exactly as requested (default 100, no cap), and every
offset at or past the end of the list yields an empty page without
error. -/
theorem c1_pagination_amended (l : List SearchResult) (offset limit : Nat) :
    (paginate l offset limit).length = min limit (l.length - offset)
  ∧ (∀ i, i < limit → (paginate l offset limit)[i]? = l[offset + i]?)
  ∧ (l.length ≤ offset → paginate l offset limit = []) := by
  refine ⟨by simp [paginate], fun i hi => ?_, fun h => ?_⟩
  · simp [paginate, List.getElem?_take, hi, List.getElem?_drop]
  · simp [paginate, List.drop_eq_nil_iff.mpr h]

theorem c1_pagination_amended_witness :
    ((1 : Nat) < 2 ∧
      (paginate [blankResult, linkedResult, emptyLinkResult] 1 2)[1]? =
        [blankResult, linkedResult, emptyLinkResult][1 + 1]?)
  ∧ (([] : List SearchResult).length ≤ 5 ∧ paginate [] 5 2 = []) :=
  ⟨⟨by decide, (c1_pagination_amended [blankResult, linkedResult, emptyLinkResult] 1 2).2.1 1 (by decide)⟩,
   ⟨by decide, (c1_pagination_amended [] 5 2).2.2 (by decide)⟩⟩

/-! ## Claims C2 and C9 — deduplication -/

theorem dedupScan_length_le (seen : List String) (l : List SearchResult) :
    (dedupScan seen l).length ≤ l.length := by
  induction l generalizing seen with
  | nil => simp [dedupScan]
  | cons r rest ih =>
    simp only [dedupScan]
    split
    · simpa using ih _
    · exact (ih seen).trans (Nat.le_succ _)

theorem dedupScan_eq_self (seen : List String) (l : List SearchResult)
    (h : (dedupScan seen l).length = l.length) : dedupScan seen l = l := by
  induction l generalizing seen with
  | nil => rfl
  | cons r rest ih =>
    simp only [dedupScan] at h ⊢
    split at h <;> rename_i hg
    · rw [if_pos hg]
      simp only [List.length_cons, Nat.succ.injEq] at h
      rw [ih _ h]
    · exact absurd h (Nat.ne_of_lt (Nat.lt_succ_of_le (dedupScan_length_le _ _)))

/-- The final `if len(unique_results) < len(filtered_results)` of the
source never changes the outcome: when the lengths agree the scan kept
everything, so the two lists coincide. -/
theorem dedupResults_eq_scan (l : List SearchResult) :
    dedupResults l = dedupScan [] l := by
  simp only [dedupResults]
  split <;> rename_i h
  · rfl
  · exact (dedupScan_eq_self [] l (Nat.le_antisymm (dedupScan_length_le [] l) (Nat.le_of_not_lt h))).symm

theorem mem_dedupScan_link_ne (seen : List String) (l : List SearchResult)
    (r : SearchResult) (h : r ∈ dedupScan seen l) :
    r.link.getD "" ≠ "" ∧ r.link.getD "" ∉ seen := by
  induction l generalizing seen with
  | nil => simp [dedupScan] at h
  | cons a rest ih =>
    simp only [dedupScan] at h
    split at h <;> rename_i hg
    · rcases List.mem_cons.mp h with h | h
      · subst h; exact hg
      · have := ih _ h
        exact ⟨this.1, fun hm => this.2 (List.mem_cons_of_mem _ hm)⟩
    · exact ih _ h

/-- C2, counterexample.  The claim says every entry with an empty or
missing link survives deduplication; the source's guard `if url and url
not in seen_urls` drops every entry whose link is empty, so a lone
empty-link entry does not survive. -/
theorem c2_counterexample : emptyLinkResult ∉ dedupResults [emptyLinkResult] := by
  decide

/-- C2, amended claim: entries whose `link` is empty or missing never
survive deduplication — the deduplicated output consists only of entries
with a non-empty link (and among those, the first occurrence of each link
is the one kept, see the C9 theorem). -/
theorem c2_dedup_amended (l : List SearchResult) (r : SearchResult)
    (h : r ∈ dedupResults l) : r.link.getD "" ≠ "" := by
  rw [dedupResults_eq_scan] at h
  exact (mem_dedupScan_link_ne [] l r h).1

theorem c2_dedup_amended_witness :
    linkedResult ∈ dedupResults [emptyLinkResult, linkedResult] ∧
      linkedResult.link.getD "" ≠ "" :=
  ⟨by decide, c2_dedup_amended [emptyLinkResult, linkedResult] linkedResult (by decide)⟩

theorem dedupScan_sublist (seen : List String) (l : List SearchResult) :
    (dedupScan seen l).Sublist l := by
  induction l generalizing seen with
  | nil => simp [dedupScan]
  | cons r rest ih =>
    simp only [dedupScan]
    split
    · exact (ih _).cons₂ r
    · exact (ih _).cons r

theorem dedupScan_links_nodup (seen : List String) (l : List SearchResult) :
    List.Pairwise (fun a b : SearchResult => a.link.getD "" ≠ b.link.getD "")
      (dedupScan seen l) := by
  induction l generalizing seen with
  | nil => simp [dedupScan]
  | cons r rest ih =>
    simp only [dedupScan]
    split <;> rename_i hg
    · refine List.Pairwise.cons (fun b hb heq => ?_) (ih _)
      have := (mem_dedupScan_link_ne _ _ _ hb).2
      exact this (by simp [← heq])
    · exact ih _

theorem dedupScan_find? (seen : List String) (l : List SearchResult) (u : String)
    (hu : u ≠ "") (hseen : u ∉ seen) :
    (dedupScan seen l).find? (fun r => r.link.getD "" == u) =
      l.find? (fun r => r.link.getD "" == u) := by
  induction l generalizing seen with
  | nil => simp [dedupScan]
  | cons r rest ih =>
    simp only [dedupScan]
    by_cases hru : r.link.getD "" = u
    · have hg : r.link.getD "" ≠ "" ∧ r.link.getD "" ∉ seen := by
        rw [hru]; exact ⟨hu, hseen⟩
      rw [if_pos hg]
      simp [List.find?_cons, hru]
    · have hpred : (r.link.getD "" == u) = false := by simp [hru]
      rw [List.find?_cons, hpred]
      split <;> rename_i hg
      · rw [List.find?_cons, hpred]
        refine ih (r.link.getD "" :: seen) fun hm => ?_
        rcases List.mem_cons.mp hm with h | h
        · exact hru h.symm
        · exact hseen h
      · exact ih seen hseen

/-- C9: deduplication returns a subsequence of its input (preserving the
original relative order); no two output entries share a non-empty link;
and for every non-empty link value, the entry found first in the output
is exactly the entry found first in the input (the first occurrence is
the one kept). -/
theorem c9_dedup_order (l : List SearchResult) :
    (dedupResults l).Sublist l
  ∧ List.Pairwise
      (fun a b : SearchResult =>
        a.link.getD "" = b.link.getD "" → a.link.getD "" = "") (dedupResults l)
  ∧ ∀ u : String, u ≠ "" →
      (dedupResults l).find? (fun r => r.link.getD "" == u) =
        l.find? (fun r => r.link.getD "" == u) := by
  rw [dedupResults_eq_scan]
  refine ⟨dedupScan_sublist [] l, ?_, fun u hu => dedupScan_find? [] l u hu (by simp)⟩
  exact (dedupScan_links_nodup [] l).imp fun h heq => absurd heq h

theorem c9_dedup_order_witness :
    ("magnet:x" : String) ≠ "" ∧
      (dedupResults [emptyLinkResult, linkedResult, linkedResult]).find?
          (fun r => r.link.getD "" == "magnet:x") =
        [emptyLinkResult, linkedResult, linkedResult].find?
          (fun r => r.link.getD "" == "magnet:x") :=
  ⟨by decide, (c9_dedup_order [emptyLinkResult, linkedResult, linkedResult]).2.2
    "magnet:x" (by decide)⟩

/-! ## Claim C6 — cache fingerprint -/

/-- C6: the cache key is a function of exactly the seven search-intent
fields `q, cat, imdbid, tvdbid, season, ep, t` (each read with default
`''`): any two parameter maps that agree on those seven fields — in
particular maps that differ only in `offset`, `limit`, `apikey`, or any
other field — receive the same fingerprint, whatever deterministic hash
`md5hex` is applied to the key string. -/
theorem c6_cache_fingerprint (md5hex : String → String) (p q : Params)
    (h : ∀ f ∈ (["q", "cat", "imdbid", "tvdbid", "season", "ep", "t"] : List String),
      pGet p f = pGet q f) :
    get_cache_key md5hex p = get_cache_key md5hex q := by
  have hc : cacheParams p = cacheParams q := by
    simp only [cacheParams]
    rw [h "q" (by simp), h "cat" (by simp), h "imdbid" (by simp), h "tvdbid" (by simp),
      h "season" (by simp), h "ep" (by simp), h "t" (by simp)]
  rw [get_cache_key, get_cache_key, hc]

theorem c6_cache_fingerprint_witness :
    (∀ f ∈ (["q", "cat", "imdbid", "tvdbid", "season", "ep", "t"] : List String),
      pGet [("q", "dune"), ("offset", "0"), ("limit", "50")] f =
        pGet [("q", "dune"), ("offset", "100"), ("limit", "200"), ("apikey", "k")] f)
  ∧ get_cache_key id [("q", "dune"), ("offset", "0"), ("limit", "50")] =
      get_cache_key id [("q", "dune"), ("offset", "100"), ("limit", "200"), ("apikey", "k")] :=
  ⟨by decide, c6_cache_fingerprint id _ _ (by decide)⟩

/-! ## Claims C3 and C4 — the cross-seed filter -/

/-- The two sequential guards of the source are equivalent to the claim's
single keep condition: member count at least `minDuplicates`, and either
no private trackers configured or at least one private member. -/
theorem processGroup_claim (cfg : Config) (grp : List SearchResult) :
    processGroup cfg grp =
      if cfg.minDuplicates ≤ grp.length ∧
          (cfg.privateTrackers = [] ∨ 0 < privateCount cfg grp)
      then grp.map (annotate (privateCount cfg grp) (publicCount cfg grp))
      else [] := by
  unfold processGroup
  by_cases h1 : grp.length < cfg.minDuplicates
  · rw [if_pos h1, if_neg]
    rintro ⟨h, -⟩
    omega
  · rw [if_neg h1]
    by_cases h2 : cfg.privateTrackers ≠ [] ∧ privateCount cfg grp = 0
    · rw [if_pos h2, if_neg]
      rintro ⟨-, h | h⟩
      · exact h2.1 h
      · omega
    · rw [if_neg h2, if_pos]
      refine ⟨Nat.le_of_not_lt h1, ?_⟩
      by_cases hp : cfg.privateTrackers = []
      · exact Or.inl hp
      · refine Or.inr ?_
        rcases Nat.eq_zero_or_pos (privateCount cfg grp) with h0 | h0
        · exact absurd ⟨hp, h0⟩ h2
        · exact h0

/-- C3: a group's members are emitted exactly when the group has at least
`minDuplicates` members and (no private trackers are configured, or the
group has a private member); in particular a group one short of
`minDuplicates` is always dropped, a group of exactly `minDuplicates`
members is kept when no private trackers are configured, and with private
trackers configured a group with `privateCount = 0` is dropped whatever
its size. -/
theorem c3_cross_seed_keep_drop (cfg : Config) (k : GroupKey)
    (grp : List SearchResult) :
    (∀ groups, filter_cross_seedable cfg groups =
        flatMapL (fun p =>
          if cfg.minDuplicates ≤ p.2.length ∧
              (cfg.privateTrackers = [] ∨ 0 < privateCount cfg p.2)
          then p.2.map (annotate (privateCount cfg p.2) (publicCount cfg p.2))
          else []) groups)
  ∧ (grp.length + 1 = cfg.minDuplicates → filter_cross_seedable cfg [(k, grp)] = [])
  ∧ (cfg.privateTrackers = [] → grp.length = cfg.minDuplicates →
      filter_cross_seedable cfg [(k, grp)] =
        grp.map (annotate (privateCount cfg grp) (publicCount cfg grp)))
  ∧ (cfg.privateTrackers ≠ [] → privateCount cfg grp = 0 →
      filter_cross_seedable cfg [(k, grp)] = []) := by
  have hsingle : filter_cross_seedable cfg [(k, grp)] = processGroup cfg grp := by
    simp [filter_cross_seedable, flatMapL]
  refine ⟨fun groups => ?_, fun h => ?_, fun hp h => ?_, fun hp h0 => ?_⟩
  · induction groups with
    | nil => rfl
    | cons a t ih =>
      simp only [filter_cross_seedable, flatMapL] at ih ⊢
      rw [processGroup_claim, ih]
  · rw [hsingle, processGroup_claim, if_neg]
    rintro ⟨hle, -⟩
    omega
  · rw [hsingle, processGroup_claim, if_pos ⟨Nat.le_of_eq h.symm, Or.inl hp⟩]
  · rw [hsingle, processGroup]
    by_cases h1 : grp.length < cfg.minDuplicates
    · rw [if_pos h1]
    · rw [if_neg h1, if_pos ⟨hp, h0⟩]

theorem c3_cross_seed_keep_drop_witness :
    ((1 : Nat) + 1 = (Config.mk 2 []).minDuplicates ∧
      filter_cross_seedable (Config.mk 2 []) [(("x", 0), [blankResult])] = [])
  ∧ ((Config.mk 2 []).privateTrackers = [] ∧
      (2 : Nat) = (Config.mk 2 []).minDuplicates ∧
      filter_cross_seedable (Config.mk 2 []) [(("x", 0), [blankResult, blankResult])] =
        [blankResult, blankResult].map
          (annotate (privateCount (Config.mk 2 []) [blankResult, blankResult])
            (publicCount (Config.mk 2 []) [blankResult, blankResult]))) :=
  ⟨⟨by decide, ((c3_cross_seed_keep_drop (Config.mk 2 []) ("x", 0) [blankResult]).2.1 (by decide))⟩,
   ⟨by decide, by decide,
    ((c3_cross_seed_keep_drop (Config.mk 2 []) ("x", 0) [blankResult, blankResult]).2.2.1
      (by decide) (by decide))⟩⟩

/-- C4: every result emitted by the cross-seed filter carries the
`trackerCounts` annotation of the group that produced it, and the private
and public counts of that group always add up to the group's member
count. -/
theorem c4_tracker_count_invariant (cfg : Config)
    (groups : List (GroupKey × List SearchResult)) (r : SearchResult)
    (h : r ∈ filter_cross_seedable cfg groups) :
    ∃ k grp, (k, grp) ∈ groups ∧
      r.trackerCounts = some (privateCount cfg grp, publicCount cfg grp) ∧
      privateCount cfg grp + publicCount cfg grp = grp.length := by
  obtain ⟨⟨k, grp⟩, hmem, hr⟩ := mem_flatMapL.mp h
  refine ⟨k, grp, hmem, ?_, length_filter_add_not _ _⟩
  rw [processGroup_claim] at hr
  split at hr
  · obtain ⟨r₀, -, hr₀⟩ := List.mem_map.mp hr
    rw [← hr₀]
    rfl
  · simp at hr

theorem c4_tracker_count_invariant_witness :
    (annotate 0 1 blankResult ∈
        filter_cross_seedable (Config.mk 1 []) [(("x", 0), [blankResult])])
  ∧ ∃ k grp, (k, grp) ∈ [((("x", 0) : GroupKey), [blankResult])] ∧
      (annotate 0 1 blankResult).trackerCounts =
        some (privateCount (Config.mk 1 []) grp, publicCount (Config.mk 1 []) grp) ∧
      privateCount (Config.mk 1 []) grp + publicCount (Config.mk 1 []) grp = grp.length :=
  ⟨by decide,
   c4_tracker_count_invariant (Config.mk 1 []) [(("x", 0), [blankResult])]
     (annotate 0 1 blankResult) (by decide)⟩

/-! ## Claim C7 — the size bucketer -/

theorem abs_roundHalfEven_sub (x : ℚ) : |(roundHalfEven x : ℚ) - x| ≤ 1 / 2 := by
  unfold roundHalfEven
  split <;> rename_i htie
  · split
    · rw [abs_sub_comm, abs_of_nonneg (by linarith [Int.floor_le x])]
      linarith
    · have h14 : ((⌊x⌋ + 1 : ℤ) : ℚ) - x = 1 - (x - ⌊x⌋) := by push_cast; ring
      rw [h14, htie, abs_of_nonneg (by norm_num : (0 : ℚ) ≤ 1 - 1 / 2)]
      norm_num
  · rw [abs_sub_comm]
    exact abs_sub_round x

/-- `roundHalfEven` picks a nearest integer. -/
theorem roundHalfEven_nearest (x : ℚ) (k : ℤ) :
    |(roundHalfEven x : ℚ) - x| ≤ |(k : ℚ) - x| := by
  by_cases hk : k = roundHalfEven x
  · rw [hk]
  · have h1 : (1 : ℚ) ≤ |(k : ℚ) - (roundHalfEven x : ℚ)| := by
      rw [← Int.cast_sub, ← Int.cast_abs]
      exact_mod_cast Int.one_le_abs (sub_ne_zero.mpr hk)
    have h2 := abs_roundHalfEven_sub x
    have h3 : |(k : ℚ) - (roundHalfEven x : ℚ)| ≤
        |(k : ℚ) - x| + |x - (roundHalfEven x : ℚ)| := abs_sub_le _ _ _
    rw [abs_sub_comm x] at h3
    linarith

theorem bucketWidth_pos (s : Nat) : 0 < bucketWidth s := by
  simp only [bucketWidth]
  split
  · norm_num
  · split <;> norm_num

/-- C7: with `m = size / 2^20` megabytes (exact rational model of the
float division) and the magnitude-dependent width `w` (10 below 100 MB,
50 below 1000 MB, 100 from 1000 MB up), `get_size_bucket` returns a
single integer multiple of `w` that is nearest to `m` among all integer
multiples of `w` (Python `round` breaks exact ties toward the even
multiple, which is one of the two nearest). -/
theorem c7_size_bucket (s : Nat) :
    (∃ k : ℤ, get_size_bucket s = bucketWidth s * k)
  ∧ (bucketWidth s =
      if (s : ℚ) / (1024 * 1024) < 100 then 10
      else if (s : ℚ) / (1024 * 1024) < 1000 then 50 else 100)
  ∧ ∀ k : ℤ,
      |(get_size_bucket s : ℚ) - (s : ℚ) / (1024 * 1024)| ≤
        |(bucketWidth s : ℚ) * (k : ℚ) - (s : ℚ) / (1024 * 1024)| := by
  have hgs : get_size_bucket s =
      roundHalfEven (((s : ℚ) / (1024 * 1024)) / (bucketWidth s : ℚ)) * bucketWidth s := rfl
  refine ⟨⟨roundHalfEven (((s : ℚ) / (1024 * 1024)) / (bucketWidth s : ℚ)),
      by rw [hgs]; ring⟩, rfl, fun k => ?_⟩
  have hwpos : (0 : ℚ) < (bucketWidth s : ℚ) := by exact_mod_cast bucketWidth_pos s
  have hwne : (bucketWidth s : ℚ) ≠ 0 := ne_of_gt hwpos
  have hkey : (get_size_bucket s : ℚ) - (s : ℚ) / (1024 * 1024) =
      (bucketWidth s : ℚ) *
        ((roundHalfEven (((s : ℚ) / (1024 * 1024)) / (bucketWidth s : ℚ)) : ℚ) -
          ((s : ℚ) / (1024 * 1024)) / (bucketWidth s : ℚ)) := by
    rw [hgs]
    push_cast
    field_simp
    ring
  have hks : (bucketWidth s : ℚ) * (k : ℚ) - (s : ℚ) / (1024 * 1024) =
      (bucketWidth s : ℚ) * ((k : ℚ) - ((s : ℚ) / (1024 * 1024)) / (bucketWidth s : ℚ)) := by
    field_simp
    ring
  rw [hkey, hks, abs_mul, abs_mul, abs_of_pos hwpos]
  exact mul_le_mul_of_nonneg_left (roundHalfEven_nearest _ k) (le_of_lt hwpos)

/-! ## Claims C5 and C10 — the grouping engine -/

theorem group_results_concat (l : List SearchResult) (r : SearchResult) :
    group_results (l ++ [r]) = insertGroup (groupKey r) r (group_results l) := by
  simp [group_results, List.foldl_append]

theorem insertGroup_flat_perm (key : GroupKey) (r : SearchResult)
    (acc : List (GroupKey × List SearchResult)) :
    (flatMapL Prod.snd (insertGroup key r acc)).Perm
      (flatMapL Prod.snd acc ++ [r]) := by
  induction acc with
  | nil => simp [insertGroup, flatMapL]
  | cons p t ih =>
    obtain ⟨k, rs⟩ := p
    simp only [insertGroup]
    split
    · simp only [flatMapL]
      rw [List.append_assoc, List.append_assoc]
      exact List.Perm.append_left rs List.perm_append_comm
    · simp only [flatMapL]
      rw [List.append_assoc]
      exact List.Perm.append_left rs ih

theorem group_results_flat_perm (l : List SearchResult) :
    (flatMapL Prod.snd (group_results l)).Perm l := by
  induction l using List.reverseRecOn with
  | nil => simp [group_results, flatMapL]
  | append_singleton l r ih =>
    rw [group_results_concat]
    exact (insertGroup_flat_perm _ _ _).trans (ih.append_right [r])

theorem mem_firstOccurs {α : Type} [DecidableEq α] (l : List α) (x : α) :
    x ∈ firstOccurs l ↔ x ∈ l := by
  induction l using firstOccurs.induct with
  | case1 => simp [firstOccurs]
  | case2 k rest ih =>
    rw [firstOccurs, List.mem_cons, ih, List.mem_filter, List.mem_cons]
    by_cases hxk : x = k
    · simp [hxk]
    · simp [hxk]

theorem firstOccurs_nodup {α : Type} [DecidableEq α] (l : List α) :
    (firstOccurs l).Nodup := by
  induction l using firstOccurs.induct with
  | case1 => simp [firstOccurs]
  | case2 k rest ih =>
    rw [firstOccurs, List.nodup_cons]
    refine ⟨fun hmem => ?_, ih⟩
    have := (mem_firstOccurs _ _).mp hmem
    simp [List.mem_filter] at this

theorem firstOccurs_concat {α : Type} [DecidableEq α] (l : List α) (x : α) :
    firstOccurs (l ++ [x]) =
      if x ∈ l then firstOccurs l else firstOccurs l ++ [x] := by
  induction l using firstOccurs.induct with
  | case1 => simp [firstOccurs]
  | case2 k rest ih =>
    rw [List.cons_append, firstOccurs, List.filter_append]
    by_cases hxk : x = k
    · have hfx : List.filter (fun y => decide (y ≠ k)) [x] = [] := by simp [hxk]
      rw [hfx, List.append_nil, firstOccurs]
      rw [if_pos (by simp [hxk])]
    · have hfx : List.filter (fun y => decide (y ≠ k)) [x] = [x] := by simp [hxk]
      rw [hfx, ih]
      by_cases hxr : x ∈ rest
      · have h1 : x ∈ List.filter (fun y => decide (y ≠ k)) rest := by
          rw [List.mem_filter]
          exact ⟨hxr, by simp [hxk]⟩
        rw [if_pos h1, if_pos (List.mem_cons_of_mem _ hxr), firstOccurs]
      · have h1 : x ∉ List.filter (fun y => decide (y ≠ k)) rest := by
          rw [List.mem_filter]
          rintro ⟨h, -⟩
          exact hxr h
        rw [if_neg h1, if_neg (by simp [hxr, hxk]), firstOccurs, List.cons_append]

theorem insertGroup_absent (key : GroupKey) (r : SearchResult)
    (acc : List (GroupKey × List SearchResult)) (h : ∀ p ∈ acc, p.1 ≠ key) :
    insertGroup key r acc = acc ++ [(key, [r])] := by
  induction acc with
  | nil => rfl
  | cons p t ih =>
    obtain ⟨k, rs⟩ := p
    simp only [insertGroup]
    rw [if_neg (h (k, rs) (by simp)), ih fun q hq => h q (List.mem_cons_of_mem _ hq),
      List.cons_append]

theorem insertGroup_mapped (key : GroupKey) (r : SearchResult)
    (F : GroupKey → List SearchResult) (K : List GroupKey)
    (hmem : key ∈ K) (hnd : K.Nodup) :
    insertGroup key r (K.map fun k => (k, F k)) =
      K.map fun k => (k, if k = key then F k ++ [r] else F k) := by
  induction K with
  | nil => simp at hmem
  | cons k0 K' ih =>
    rw [List.map_cons, List.map_cons]
    by_cases hk : k0 = key
    · subst hk
      have h1 : insertGroup k0 r ((k0, F k0) :: List.map (fun k => (k, F k)) K') =
          (k0, F k0 ++ [r]) :: List.map (fun k => (k, F k)) K' := by
        simp [insertGroup]
      rw [h1, if_pos rfl]
      congr 1
      refine (List.map_congr_left fun k hk' => ?_).symm
      have hne : ¬k = k0 := by
        intro he
        exact (List.nodup_cons.mp hnd).1 (he ▸ hk')
      rw [if_neg hne]
    · simp only [insertGroup]
      rw [if_neg hk]
      congr 1
      · rw [if_neg hk]
      · refine ih ?_ (List.nodup_cons.mp hnd).2
        rcases List.mem_cons.mp hmem with h | h
        · exact absurd h.symm hk
        · exact h

/-- The central structure lemma: `group_results` produces one entry per
distinct key, keys ordered by first occurrence, and each group's members
are exactly the input results with that key, in input order. -/
theorem group_results_eq (l : List SearchResult) :
    group_results l =
      (firstOccurs (l.map groupKey)).map
        (fun k => (k, l.filter fun r => decide (groupKey r = k))) := by
  induction l using List.reverseRecOn with
  | nil => simp [group_results, firstOccurs]
  | append_singleton l r ih =>
    rw [group_results_concat, ih, List.map_append, List.map_singleton,
      firstOccurs_concat]
    by_cases hmem : groupKey r ∈ l.map groupKey
    · rw [if_pos hmem,
        insertGroup_mapped (groupKey r) r _ _ ((mem_firstOccurs _ _).mpr hmem)
          (firstOccurs_nodup _)]
      refine List.map_congr_left fun k hk => ?_
      rw [Prod.mk.injEq]
      refine ⟨rfl, ?_⟩
      rw [List.filter_append]
      by_cases hkr : k = groupKey r
      · rw [if_pos hkr]
        congr 1
        simp [hkr]
      · rw [if_neg hkr]
        have hne2 : ¬groupKey r = k := fun he => hkr he.symm
        have hfr : List.filter (fun r' => decide (groupKey r' = k)) [r] = [] := by
          simp [hne2]
        rw [hfr, List.append_nil]
    · have habs : ∀ p ∈ (firstOccurs (l.map groupKey)).map
          (fun k => (k, l.filter fun r' => decide (groupKey r' = k))),
          p.1 ≠ groupKey r := by
        intro p hp
        obtain ⟨k, hkK, rfl⟩ := List.mem_map.mp hp
        intro he
        exact hmem (he ▸ (mem_firstOccurs _ _).mp hkK)
      rw [if_neg hmem, insertGroup_absent _ _ _ habs, List.map_append,
        List.map_singleton]
      congr 1
      · refine List.map_congr_left fun k hk => ?_
        rw [Prod.mk.injEq]
        refine ⟨rfl, ?_⟩
        rw [List.filter_append]
        have hne : ¬groupKey r = k := by
          intro he
          exact hmem (by rw [he]; exact (mem_firstOccurs _ _).mp hk)
        have hfr : List.filter (fun r' => decide (groupKey r' = k)) [r] = [] := by
          simp [hne]
        rw [hfr, List.append_nil]
      · have hfl : l.filter (fun r' => decide (groupKey r' = groupKey r)) = [] := by
          rw [List.filter_eq_nil_iff]
          intro a ha
          simp only [decide_eq_true_eq]
          intro he
          exact hmem (he ▸ List.mem_map_of_mem groupKey ha)
        simp [List.filter_append, hfl]

/-- C5: grouping is a partition.  The members of all groups together are
a permutation of the input (no result lost or duplicated), the group keys
are pairwise distinct, every group's member list is exactly the sublist
of input results carrying that key (so input order is preserved within a
group and each result lands in the single group of its key), and the
number of groups equals the number of distinct keys. -/
theorem c5_grouping_partition (l : List SearchResult) :
    (flatMapL Prod.snd (group_results l)).Perm l
  ∧ ((group_results l).map Prod.fst).Nodup
  ∧ (∀ k g, (k, g) ∈ group_results l →
      g = l.filter fun r => decide (groupKey r = k))
  ∧ (group_results l).length = (l.map groupKey).toFinset.card := by
  refine ⟨group_results_flat_perm l, ?_, ?_, ?_⟩
  · rw [group_results_eq, List.map_map]
    have h1 : (Prod.fst ∘ fun k : GroupKey =>
        (k, l.filter fun r => decide (groupKey r = k))) = id := rfl
    rw [h1, List.map_id]
    exact firstOccurs_nodup _
  · intro k g hm
    rw [group_results_eq] at hm
    obtain ⟨k', hk', heq⟩ := List.mem_map.mp hm
    obtain ⟨h1, h2⟩ := Prod.mk.injEq .. ▸ heq
    exact h1 ▸ h2.symm
  · rw [group_results_eq, List.length_map]
    have h1 : (firstOccurs (l.map groupKey)).toFinset = (l.map groupKey).toFinset := by
      ext a
      simp [List.mem_toFinset, mem_firstOccurs]
    rw [← List.toFinset_card_of_nodup (firstOccurs_nodup (l.map groupKey)), h1]

theorem normalize_title_empty : normalize_title "" = "" := rfl

theorem get_size_bucket_zero : get_size_bucket 0 = 0 := by
  have h0 : ((0 : Nat) : ℚ) / (1024 * 1024) = 0 := by norm_num
  have hw : bucketWidth 0 = 10 := by
    simp only [bucketWidth, h0]
    norm_num
  have hgs : get_size_bucket 0 =
      roundHalfEven (((0 : Nat) : ℚ) / (1024 * 1024) / (bucketWidth 0 : ℚ)) *
        bucketWidth 0 := rfl
  rw [hgs, hw, h0]
  norm_num [roundHalfEven]

theorem groupKey_blank : groupKey blankResult = ("", 0) := by
  show (normalize_title "", get_size_bucket 0) = ("", 0)
  rw [normalize_title_empty, get_size_bucket_zero]

theorem group_results_blank :
    group_results [blankResult] = [(("", 0), [blankResult])] := by
  have h : group_results [blankResult] = [(groupKey blankResult, [blankResult])] := rfl
  rw [h, groupKey_blank]

theorem c5_grouping_partition_witness :
    ((("", 0), [blankResult]) ∈ group_results [blankResult] ∧
      [blankResult] = [blankResult].filter fun r => decide (groupKey r = ("", 0))) :=
  ⟨by rw [group_results_blank]; exact List.mem_singleton_self _,
   (c5_grouping_partition [blankResult]).2.2.1 ("", 0) [blankResult]
     (by rw [group_results_blank]; exact List.mem_singleton_self _)⟩

/-- C10 (implicit claim): the flattened output of the cross-seed filter
applied to the grouped results is a deterministic function of the input
list and configuration, given here in closed form: the kept groups appear
in order of the first occurrence of each group's key in the input, and
each group contributes its members in input order (`List.filter`
preserves input order). -/
theorem c10_deterministic_order (cfg : Config) (l : List SearchResult) :
    filter_cross_seedable cfg (group_results l) =
      flatMapL
        (fun k => processGroup cfg (l.filter fun r => decide (groupKey r = k)))
        (firstOccurs (l.map groupKey)) := by
  rw [group_results_eq]
  simp only [filter_cross_seedable]
  rw [flatMapL_map]

/-! ## Claim C8 — the title normalizer

The development below proves that `normalize_title` identifies titles
that differ only in letter case and in the style or length of the
separator runs (`.`/`_`/`-`/whitespace) between the same tokens, the
relation captured by `RunEquiv isSepAll` on the lowercased character
lists. -/

theorem isSpacePy_cases {c : Char} (h : isSpacePy c = true) :
    c = ' ' ∨ c = '\t' ∨ c = '\n' ∨ c = '\r' ∨ c = '\x0B' ∨ c = '\x0C' := by
  simp only [isSpacePy, Bool.or_eq_true, beq_iff_eq] at h
  tauto

theorem space_not_word {c : Char} (h : isSpacePy c = true) : isWordPy c = false := by
  rcases isSpacePy_cases h with rfl | rfl | rfl | rfl | rfl | rfl <;> decide

theorem word_not_space {c : Char} (h : isWordPy c = true) : isSpacePy c = false := by
  rcases hs : isSpacePy c with _ | _
  · rfl
  · rw [space_not_word hs] at h
    cases h

theorem space_ne_w {c : Char} (h : isSpacePy c = true) : ('w' == c) = false := by
  rcases isSpacePy_cases h with rfl | rfl | rfl | rfl | rfl | rfl <;> decide

theorem sepAll_space {c : Char} (h : isSepAll c = false) : isSpacePy c = false := by
  simp only [isSepAll, Bool.or_eq_false_iff] at h
  exact h.2

theorem sepAll_dot {c : Char} (h : isSepAll c = false) : isDotSep c = false := by
  simp only [isSepAll, Bool.or_eq_false_iff] at h
  exact h.1

theorem space_sepAll {c : Char} (h : isSpacePy c = true) : isSepAll c = true := by
  simp [isSepAll, h]

theorem not_dot_of_sepAll {c : Char} (h1 : isSepAll c = true) (h2 : isDotSep c = false) :
    isSpacePy c = true := by
  simp only [isSepAll, Bool.or_eq_true] at h1
  rcases h1 with h1 | h1
  · rw [h1] at h2
    cases h2
  · exact h1

/-! ### Basic facts about `RunEquiv` -/

theorem runEquiv_refl {P : Char → Bool} : ∀ (x : List Char), RunEquiv P x x := by
  intro x
  induction x with
  | nil => exact .nil
  | cons c t ih =>
    rcases hc : P c with _ | _
    · exact .chr c hc ih
    · exact .run [c] [c] (by simp) (by simpa using hc) (by simp) (by simpa using hc) ih

theorem RunEquiv.symm {P : Char → Bool} :
    ∀ {x y : List Char}, RunEquiv P x y → RunEquiv P y x := by
  intro x y h
  induction h with
  | nil => exact .nil
  | chr c hc h ih => exact .chr c hc ih
  | run a b ha hpa hb hpb h ih => exact .run b a hb hpb ha hpa ih

/-- Head classification: related lists are both empty, both start with
the same non-separator character, or both start with separator
characters. -/
theorem RunEquiv.head_cases {P : Char → Bool} :
    ∀ {x y : List Char}, RunEquiv P x y →
      (x = [] ∧ y = []) ∨
      (∃ c x' y', P c = false ∧ x = c :: x' ∧ y = c :: y' ∧ RunEquiv P x' y') ∨
      (∃ c d x' y', P c = true ∧ P d = true ∧ x = c :: x' ∧ y = d :: y') := by
  intro x y h
  induction h with
  | nil => exact Or.inl ⟨rfl, rfl⟩
  | chr c hc h ih => exact Or.inr (Or.inl ⟨c, _, _, hc, rfl, rfl, h⟩)
  | run a b ha hpa hb hpb h ih =>
    refine Or.inr (Or.inr ?_)
    obtain ⟨c, a', rfl⟩ := List.exists_cons_of_ne_nil ha
    obtain ⟨d, b', rfl⟩ := List.exists_cons_of_ne_nil hb
    exact ⟨c, d, _, _, hpa c (by simp), hpb d (by simp), rfl, rfl⟩

theorem RunEquiv.nil_inv {P : Char → Bool} {y : List Char}
    (h : RunEquiv P [] y) : y = [] := by
  rcases h.head_cases with ⟨-, hy⟩ | ⟨c, x', y', -, hx, -, -⟩ | ⟨c, d, x', y', -, -, hx, -⟩
  · exact hy
  · cases hx
  · cases hx

theorem RunEquiv.cons_inv {P : Char → Bool} {c : Char} {x' y : List Char}
    (h : RunEquiv P (c :: x') y) (hc : P c = false) :
    ∃ y', y = c :: y' ∧ RunEquiv P x' y' := by
  rcases h.head_cases with ⟨hx, -⟩ | ⟨c2, x2, y2, hc2, hx, hy, h2⟩ |
    ⟨c2, d, x2, y2, hc2, hd, hx, hy⟩
  · cases hx
  · injection hx with h1 h2'
    subst h1
    subst h2'
    exact ⟨y2, hy, h2⟩
  · injection hx with h1 h2'
    subst h1
    rw [hc] at hc2
    cases hc2

theorem dropWhile_append_all (P : Char → Bool) (a : List Char)
    (x : List Char) (h : ∀ c ∈ a, P c = true) :
    (a ++ x).dropWhile P = x.dropWhile P := by
  induction a with
  | nil => rfl
  | cons c t ih =>
    rw [List.cons_append, List.dropWhile_cons, if_pos (by simp [h c (by simp)])]
    exact ih fun e he => h e (by simp [he])

/-- `dropWhile P` on both sides preserves the relation. -/
theorem RunEquiv.dropWhile_self {P : Char → Bool} :
    ∀ {x y : List Char}, RunEquiv P x y →
      RunEquiv P (x.dropWhile P) (y.dropWhile P) := by
  intro x y h
  induction h with
  | nil => exact .nil
  | chr c hc h ih =>
    rw [List.dropWhile_cons, if_neg (by simp [hc]), List.dropWhile_cons,
      if_neg (by simp [hc])]
    exact .chr c hc h
  | run a b ha hpa hb hpb h ih =>
    rw [dropWhile_append_all P a _ hpa, dropWhile_append_all P b _ hpb]
    exact ih

/-- `takeWhile`/`dropWhile` for a class `Q` disjoint from `P`: the taken
prefixes agree and the remainders stay related. -/
theorem RunEquiv.takeDrop_other {P Q : Char → Bool}
    (hdisj : ∀ c, Q c = true → P c = false) :
    ∀ {x y : List Char}, RunEquiv P x y →
      x.takeWhile Q = y.takeWhile Q ∧ RunEquiv P (x.dropWhile Q) (y.dropWhile Q) := by
  intro x y h
  induction h with
  | nil => exact ⟨rfl, .nil⟩
  | chr c hc h ih =>
    rcases hq : Q c with _ | _
    · rw [List.takeWhile_cons, if_neg (by simp [hq]), List.takeWhile_cons,
        if_neg (by simp [hq]), List.dropWhile_cons, if_neg (by simp [hq]),
        List.dropWhile_cons, if_neg (by simp [hq])]
      exact ⟨rfl, .chr c hc h⟩
    · rw [List.takeWhile_cons, if_pos (by simp [hq]), List.takeWhile_cons,
        if_pos (by simp [hq]), List.dropWhile_cons, if_pos (by simp [hq]),
        List.dropWhile_cons, if_pos (by simp [hq])]
      exact ⟨by rw [ih.1], ih.2⟩
  | run a b ha hpa hb hpb h ih =>
    obtain ⟨c, a', rfl⟩ := List.exists_cons_of_ne_nil ha
    obtain ⟨d, b', rfl⟩ := List.exists_cons_of_ne_nil hb
    have hqc : Q c = false := by
      rcases hq : Q c with _ | _
      · rfl
      · have h1 := hdisj c hq
        have h2 := hpa c (by simp)
        rw [h1] at h2
        cases h2
    have hqd : Q d = false := by
      rcases hq : Q d with _ | _
      · rfl
      · have h1 := hdisj d hq
        have h2 := hpb d (by simp)
        rw [h1] at h2
        cases h2
    simp only [List.cons_append, List.takeWhile_cons, List.dropWhile_cons, hqc,
      Bool.false_eq_true, if_false, hqd]
    exact ⟨by simp, .run (c :: a') (d :: b') (by simp) hpa (by simp) hpb h⟩

/-! ### Facts about the boilerplate matcher -/

theorem matchLit_some_iff : ∀ (ls s r : List Char),
    matchLit ls s = some r ↔ s = ls ++ r := by
  intro ls
  induction ls with
  | nil =>
    intro s r
    simp only [matchLit, Option.some.injEq, List.nil_append]
  | cons c lt ih =>
    intro s r
    cases s with
    | nil => simp [matchLit]
    | cons d t =>
      by_cases hcd : c = d
      · subst hcd
        have h1 : matchLit (c :: lt) (c :: t) = matchLit lt t := by
          simp [matchLit]
        rw [h1, ih t r, List.cons_append]
        simp
      · have hdc : ¬d = c := fun h => hcd h.symm
        have h1 : matchLit (c :: lt) (d :: t) = none := by
          simp [matchLit, hcd]
        rw [h1, List.cons_append]
        simp [hdc]

theorem dropRun1_eq_some {p : Char → Bool} {s r : List Char} :
    dropRun1 p s = some r ↔
      ∃ c t, s = c :: t ∧ p c = true ∧ r = t.dropWhile p := by
  cases s with
  | nil => simp [dropRun1]
  | cons c t =>
    simp only [dropRun1]
    by_cases hc : p c = true
    · rw [if_pos hc]
      simp only [Option.some.injEq]
      constructor
      · intro h
        exact ⟨c, t, rfl, hc, h.symm⟩
      · rintro ⟨c', t', heq, hc', hr⟩
        injection heq with e1 e2
        subst e1
        subst e2
        exact hr.symm
    · rw [if_neg hc]
      constructor
      · intro h
        cases h
      · rintro ⟨c', t', heq, hc', -⟩
        injection heq with e1 e2
        subst e1
        exact absurd hc' hc

theorem matchLit_mismatch {c d : Char} (h : ¬c = d) (ls t : List Char) :
    matchLit (c :: ls) (d :: t) = none := by
  simp [matchLit, h]

theorem matchTail_first {s r1 : List Char}
    (h : matchLit ['o', 'r', 'g'] s = some r1) : matchTail s = some r1 := by
  unfold matchTail
  rw [h]

theorem matchTail_second {s r2 : List Char}
    (h1 : matchLit ['o', 'r', 'g'] s = none)
    (h2 : matchLit ['c', 'o', 'm'] s = some r2) : matchTail s = some r2 := by
  unfold matchTail
  rw [h1, h2]

theorem matchTail_third {s : List Char}
    (h1 : matchLit ['o', 'r', 'g'] s = none)
    (h2 : matchLit ['c', 'o', 'm'] s = none) :
    matchTail s = matchLit ['n', 'e', 't'] s := by
  unfold matchTail
  rw [h1, h2]

theorem matchTail_some_iff (s r : List Char) :
    matchTail s = some r ↔
      s = ['o', 'r', 'g'] ++ r ∨ s = ['c', 'o', 'm'] ++ r ∨ s = ['n', 'e', 't'] ++ r := by
  constructor
  · intro h
    rcases e1 : matchLit ['o', 'r', 'g'] s with _ | r1
    · rcases e2 : matchLit ['c', 'o', 'm'] s with _ | r2
      · rw [matchTail_third e1 e2] at h
        exact Or.inr (Or.inr ((matchLit_some_iff _ _ _).mp h))
      · rw [matchTail_second e1 e2] at h
        injection h with e3
        subst e3
        exact Or.inr (Or.inl ((matchLit_some_iff _ _ _).mp e2))
    · rw [matchTail_first e1] at h
      injection h with e3
      subst e3
      exact Or.inl ((matchLit_some_iff _ _ _).mp e1)
  · rintro (he | he | he)
    · exact matchTail_first ((matchLit_some_iff _ _ _).mpr he)
    · subst he
      exact matchTail_second (matchLit_mismatch (by decide) _ _)
        ((matchLit_some_iff _ _ _).mpr rfl)
    · subst he
      simp only [List.cons_append, List.nil_append]
      rw [matchTail_third (matchLit_mismatch (by decide) _ _)
        (matchLit_mismatch (by decide) _ _)]
      exact (matchLit_some_iff _ _ _).mpr (by simp)

theorem matchLit_length {ls s r : List Char} (h : matchLit ls s = some r) :
    s.length = ls.length + r.length := by
  rw [matchLit_some_iff] at h
  simp [h]

theorem dropRun1_length {p : Char → Bool} {s r : List Char}
    (h : dropRun1 p s = some r) : r.length < s.length := by
  obtain ⟨c, t, rfl, hc, rfl⟩ := dropRun1_eq_some.mp h
  exact Nat.lt_succ_of_le (List.dropWhile_sublist _).length_le

theorem matchTail_length {s r : List Char} (h : matchTail s = some r) :
    s.length = 3 + r.length := by
  rcases (matchTail_some_iff s r).mp h with he | he | he <;> subst he <;>
    simp [List.length_append] <;> omega

theorem tryMatch_length {s r : List Char} (h : tryMatch s = some r) :
    r.length < s.length := by
  unfold tryMatch at h
  simp only [Option.bind_eq_some] at h
  obtain ⟨r1, e1, r2, e2, r3, e3, r4, e4, r5, e5, e6⟩ := h
  have l1 := matchLit_length e1
  have l2 := dropRun1_length e2
  have l3 := dropRun1_length e3
  have l4 := dropRun1_length e4
  have l5 := matchTail_length e5
  split at e6
  · injection e6 with e7
    subst e7
    simp only [List.length_cons, List.length_nil] at l1
    omega
  · cases e6

/-- A match never starts at a whitespace character (the pattern begins
with the literal `www`). -/
theorem tryMatch_space_none {c : Char} (hc : isSpacePy c = true)
    (rest : List Char) : tryMatch (c :: rest) = none := by
  unfold tryMatch
  have h1 : matchLit ['w', 'w', 'w'] (c :: rest) = none := by
    simp [matchLit, space_ne_w hc]
  rw [h1, Option.none_bind]

/-- Consuming a literal of non-space characters preserves the relation. -/
theorem runEquiv_lit_step : ∀ (lit : List Char),
    (∀ c ∈ lit, isSpacePy c = false) →
    ∀ {u v r : List Char}, RunEquiv isSpacePy u v → u = lit ++ r →
      ∃ s, v = lit ++ s ∧ RunEquiv isSpacePy r s := by
  intro lit
  induction lit with
  | nil =>
    intro _ u v r h he
    rw [List.nil_append] at he
    subst he
    exact ⟨v, by simp, h⟩
  | cons c lt ih =>
    intro hns u v r h he
    subst he
    rw [List.cons_append] at h
    obtain ⟨y', rfl, h1⟩ := h.cons_inv (hns c (by simp))
    obtain ⟨s, rfl, h2⟩ := ih (fun e he2 => hns e (by simp [he2])) h1 rfl
    exact ⟨s, rfl, h2⟩

/-- Consuming a whitespace run (`\s+`) preserves the relation. -/
theorem dropRun1_space_step {u v r : List Char} (h : RunEquiv isSpacePy u v)
    (hu : dropRun1 isSpacePy u = some r) :
    ∃ s, dropRun1 isSpacePy v = some s ∧ RunEquiv isSpacePy r s := by
  obtain ⟨c, t, rfl, hc, rfl⟩ := dropRun1_eq_some.mp hu
  rcases h.head_cases with ⟨h1, -⟩ | ⟨c', x', y', hc', h1, h2, -⟩ |
    ⟨c', d, x', y', hc', hd, h1, h2⟩
  · cases h1
  · injection h1 with e1 e2
    subst e1
    rw [hc] at hc'
    cases hc'
  · injection h1 with e1 e2
    subst e1
    subst e2
    subst h2
    refine ⟨y'.dropWhile isSpacePy, by simp [dropRun1, hd], ?_⟩
    have h3 := h.dropWhile_self
    simpa [List.dropWhile_cons, hc, hd] using h3

/-- Consuming a word run (`\w+`) preserves the relation. -/
theorem dropRun1_word_step {u v r : List Char} (h : RunEquiv isSpacePy u v)
    (hu : dropRun1 isWordPy u = some r) :
    ∃ s, dropRun1 isWordPy v = some s ∧ RunEquiv isSpacePy r s := by
  obtain ⟨c, t, rfl, hc, rfl⟩ := dropRun1_eq_some.mp hu
  obtain ⟨y', rfl, h1⟩ := h.cons_inv (word_not_space hc)
  refine ⟨y'.dropWhile isWordPy, by simp [dropRun1, hc], ?_⟩
  exact (RunEquiv.takeDrop_other (fun e he => word_not_space he) h1).2

/-- Consuming the `(org|com|net)` alternation preserves the relation. -/
theorem matchTail_step {u v r : List Char} (h : RunEquiv isSpacePy u v)
    (hu : matchTail u = some r) :
    ∃ s, matchTail v = some s ∧ RunEquiv isSpacePy r s := by
  rcases (matchTail_some_iff u r).mp hu with he | he | he
  · obtain ⟨s, rfl, h2⟩ := runEquiv_lit_step ['o', 'r', 'g'] (by decide) h he
    exact ⟨s, (matchTail_some_iff _ _).mpr (Or.inl rfl), h2⟩
  · obtain ⟨s, rfl, h2⟩ := runEquiv_lit_step ['c', 'o', 'm'] (by decide) h he
    exact ⟨s, (matchTail_some_iff _ _).mpr (Or.inr (Or.inl rfl)), h2⟩
  · obtain ⟨s, rfl, h2⟩ := runEquiv_lit_step ['n', 'e', 't'] (by decide) h he
    exact ⟨s, (matchTail_some_iff _ _).mpr (Or.inr (Or.inr rfl)), h2⟩

/-- The trailing word boundary `\b` holds on one side iff on the other. -/
theorem boundaryAfter_eq {x y : List Char} (h : RunEquiv isSpacePy x y) :
    boundaryAfter x = boundaryAfter y := by
  rcases h.head_cases with ⟨rfl, rfl⟩ | ⟨c, x', y', hc, rfl, rfl, -⟩ |
    ⟨c, d, x', y', hc, hd, rfl, rfl⟩
  · rfl
  · rfl
  · simp [boundaryAfter, space_not_word hc, space_not_word hd]

/-- Matching transfers along whitespace-run equivalence: if the pattern
matches at the head of `x`, it matches at the head of any related `y`,
and the remainders are again related. -/
theorem tryMatch_some_of_runEquiv {x y rx : List Char}
    (h : RunEquiv isSpacePy x y) (hx : tryMatch x = some rx) :
    ∃ ry, tryMatch y = some ry ∧ RunEquiv isSpacePy rx ry := by
  unfold tryMatch at hx
  simp only [Option.bind_eq_some] at hx
  obtain ⟨r1, e1, r2, e2, r3, e3, r4, e4, r5, e5, e6⟩ := hx
  have hb : boundaryAfter r5 = true := by
    rcases eb : boundaryAfter r5 with _ | _
    · rw [if_neg (by simp [eb])] at e6
      cases e6
    · rfl
  rw [if_pos hb] at e6
  injection e6 with e7
  subst e7
  obtain ⟨s1, hy1, hr1⟩ := runEquiv_lit_step ['w', 'w', 'w'] (by decide) h
    ((matchLit_some_iff _ _ _).mp e1)
  obtain ⟨s2, hy2, hr2⟩ := dropRun1_space_step hr1 e2
  obtain ⟨s3, hy3, hr3⟩ := dropRun1_word_step hr2 e3
  obtain ⟨s4, hy4, hr4⟩ := dropRun1_space_step hr3 e4
  obtain ⟨s5, hy5, hr5⟩ := matchTail_step hr4 e5
  refine ⟨s5, ?_, hr5⟩
  unfold tryMatch
  simp only [Option.bind_eq_some]
  exact ⟨s1, (matchLit_some_iff _ _ _).mpr hy1, s2, hy2, s3, hy3, s4, hy4, s5, hy5,
    by rw [if_pos (by rw [← boundaryAfter_eq hr5]; exact hb)]⟩

/-! ### The boilerplate scrubber respects whitespace-run equivalence -/

/-- The fuel of `scrubGo` is irrelevant once it covers the input length
(each step consumes at least one character). -/
theorem scrubGo_fuel : ∀ (f1 f2 : Nat) (w : Bool) (s : List Char),
    s.length ≤ f1 → s.length ≤ f2 → scrubGo f1 w s = scrubGo f2 w s := by
  intro f1
  induction f1 using Nat.strong_induction_on with
  | _ f1 ih =>
    intro f2 w s h1 h2
    cases s with
    | nil => cases f1 <;> cases f2 <;> rfl
    | cons c rest =>
      cases f1 with
      | zero => simp at h1
      | succ f1' =>
        cases f2 with
        | zero => simp at h2
        | succ f2' =>
          have hr1 : rest.length ≤ f1' := by simpa using h1
          have hr2 : rest.length ≤ f2' := by simpa using h2
          simp only [scrubGo]
          by_cases hw : w = true
          · rw [if_pos hw, if_pos hw,
              ih f1' (Nat.lt_succ_self _) f2' (isWordPy c) rest hr1 hr2]
          · rw [if_neg hw, if_neg hw]
            cases heq : tryMatch (c :: rest) with
            | some rem =>
              have hlen := tryMatch_length heq
              simp only [List.length_cons] at hlen
              simp only [heq]
              exact ih f1' (Nat.lt_succ_self _) f2' true rem (by omega) (by omega)
            | none =>
              simp only [heq]
              rw [ih f1' (Nat.lt_succ_self _) f2' (isWordPy c) rest hr1 hr2]

theorem scrubF_nil (w : Bool) : scrubF w [] = [] := rfl

theorem scrubF_cons_word (c : Char) (rest : List Char) :
    scrubF true (c :: rest) = c :: scrubF (isWordPy c) rest := by
  show scrubGo (rest.length + 1) true (c :: rest) = _
  simp only [scrubGo, if_true]
  rfl

theorem scrubF_cons_match {c : Char} {rest rem : List Char}
    (h : tryMatch (c :: rest) = some rem) :
    scrubF false (c :: rest) = scrubF true rem := by
  have hlen : rem.length ≤ rest.length := by
    have h2 := tryMatch_length h
    simp only [List.length_cons] at h2
    omega
  show scrubGo (rest.length + 1) false (c :: rest) = _
  simp only [scrubGo, Bool.false_eq_true, if_false, h]
  exact scrubGo_fuel _ _ _ _ hlen le_rfl

theorem scrubF_cons_nomatch {c : Char} {rest : List Char}
    (h : tryMatch (c :: rest) = none) :
    scrubF false (c :: rest) = c :: scrubF (isWordPy c) rest := by
  show scrubGo (rest.length + 1) false (c :: rest) = _
  simp only [scrubGo, Bool.false_eq_true, if_false, h]
  rfl

/-- A whitespace character is always emitted unchanged, and leaves the
scanner in the "previous character is not a word character" state. -/
theorem scrubF_cons_space {c : Char} (hc : isSpacePy c = true) (w : Bool)
    (rest : List Char) : scrubF w (c :: rest) = c :: scrubF false rest := by
  cases w with
  | true => rw [scrubF_cons_word, space_not_word hc]
  | false => rw [scrubF_cons_nomatch (tryMatch_space_none hc rest), space_not_word hc]

/-- A whitespace run passes through the scrubber unchanged. -/
theorem scrubF_space_run : ∀ (a : List Char), a ≠ [] →
    (∀ c ∈ a, isSpacePy c = true) →
    ∀ (w : Bool) (u : List Char), scrubF w (a ++ u) = a ++ scrubF false u := by
  intro a
  induction a with
  | nil => intro h; cases h rfl
  | cons c a' ih =>
    intro _ hall w u
    rw [List.cons_append, scrubF_cons_space (hall c (by simp)) w]
    cases a' with
    | nil => simp
    | cons d a'' =>
      rw [ih (by simp) (fun e he => hall e (by simp [he])) false u]
      simp

theorem scrubF_runEquiv_aux : ∀ (n : Nat) (u v : List Char) (w : Bool),
    u.length ≤ n → RunEquiv isSpacePy u v →
    RunEquiv isSpacePy (scrubF w u) (scrubF w v) := by
  intro n
  induction n with
  | zero =>
    intro u v w hlen h
    have hu : u = [] := by
      cases u with
      | nil => rfl
      | cons c t => simp at hlen
    subst hu
    rw [h.nil_inv]
    exact .nil
  | succ n ihn =>
    intro u v w hlen h
    rcases h.head_cases with ⟨rfl, rfl⟩ | ⟨c, u', v', hc, rfl, rfl, h'⟩ |
      ⟨c, d, u', v', hc, hd, rfl, rfl⟩
    · exact .nil
    · have hlen' : u'.length ≤ n := by
        simp only [List.length_cons] at hlen
        omega
      by_cases hw : w = true
      · subst hw
        rw [scrubF_cons_word, scrubF_cons_word]
        exact .chr c hc (ihn u' v' (isWordPy c) hlen' h')
      · have hw' : w = false := by
          cases w
          · rfl
          · exact absurd rfl hw
        subst hw'
        cases heq : tryMatch (c :: u') with
        | some rem =>
          obtain ⟨remv, heqv, hrel⟩ :=
            tryMatch_some_of_runEquiv (RunEquiv.chr c hc h') heq
          rw [scrubF_cons_match heq, scrubF_cons_match heqv]
          refine ihn rem remv true ?_ hrel
          have h2 := tryMatch_length heq
          simp only [List.length_cons] at h2 hlen
          omega
        | none =>
          have heqv : tryMatch (c :: v') = none := by
            cases heqv : tryMatch (c :: v') with
            | none => rfl
            | some remv =>
              obtain ⟨remx, heqx, -⟩ :=
                tryMatch_some_of_runEquiv (RunEquiv.chr c hc h').symm heqv
              rw [heq] at heqx
              cases heqx
          rw [scrubF_cons_nomatch heq, scrubF_cons_nomatch heqv]
          exact .chr c hc (ihn u' v' (isWordPy c) hlen' h')
    · have hta : (c :: u').takeWhile isSpacePy ≠ [] := by
        rw [List.takeWhile_cons, if_pos (by simp [hc])]
        simp
      have htb : (d :: v').takeWhile isSpacePy ≠ [] := by
        rw [List.takeWhile_cons, if_pos (by simp [hd])]
        simp
      have e1 : scrubF w (c :: u') =
          (c :: u').takeWhile isSpacePy ++
            scrubF false ((c :: u').dropWhile isSpacePy) := by
        conv_lhs =>
          rw [← List.takeWhile_append_dropWhile (p := isSpacePy) (l := c :: u')]
        exact scrubF_space_run _ hta (fun e he => List.mem_takeWhile_imp he) w _
      have e2 : scrubF w (d :: v') =
          (d :: v').takeWhile isSpacePy ++
            scrubF false ((d :: v').dropWhile isSpacePy) := by
        conv_lhs =>
          rw [← List.takeWhile_append_dropWhile (p := isSpacePy) (l := d :: v')]
        exact scrubF_space_run _ htb (fun e he => List.mem_takeWhile_imp he) w _
      rw [e1, e2]
      refine RunEquiv.run _ _ hta (fun e he => List.mem_takeWhile_imp he)
        htb (fun e he => List.mem_takeWhile_imp he) ?_
      refine ihn _ _ false ?_ h.dropWhile_self
      have h3 : (c :: u').dropWhile isSpacePy = u'.dropWhile isSpacePy := by
        rw [List.dropWhile_cons, if_pos (by simp [hc])]
      rw [h3]
      have h4 := (List.dropWhile_sublist (l := u') (p := isSpacePy)).length_le
      simp only [List.length_cons] at hlen
      omega

theorem scrubF_runEquiv {u v : List Char} (w : Bool)
    (h : RunEquiv isSpacePy u v) :
    RunEquiv isSpacePy (scrubF w u) (scrubF w v) :=
  scrubF_runEquiv_aux u.length u v w le_rfl h

/-! ### Collapsing separator runs -/

theorem head_dropWhile_false (p : Char → Bool) :
    ∀ (l : List Char) {c : Char}, (l.dropWhile p).head? = some c → p c = false := by
  intro l
  induction l with
  | nil =>
    intro c h
    simp at h
  | cons a t ih =>
    intro c h
    rw [List.dropWhile_cons] at h
    split at h
    · exact ih h
    · rename_i hp
      simp only [List.head?_cons, Option.some.injEq] at h
      subst h
      rcases hpa : p a with _ | _
      · rfl
      · exact absurd hpa hp

theorem collapseRuns_cons_neg (p : Char → Bool) {c : Char} (hc : p c = false)
    (u : List Char) : collapseRuns p (c :: u) = c :: collapseRuns p u := by
  cases u with
  | nil => simp [collapseRuns, hc]
  | cons d t => simp [collapseRuns, hc]

theorem collapseRuns_nonsep_prefix (p : Char → Bool) :
    ∀ (w u : List Char), (∀ c ∈ w, p c = false) →
      collapseRuns p (w ++ u) = w ++ collapseRuns p u := by
  intro w
  induction w with
  | nil => intro u _; rfl
  | cons c w' ih =>
    intro u hall
    rw [List.cons_append, collapseRuns_cons_neg p (hall c (by simp)),
      ih u fun e he => hall e (by simp [he])]
    rfl

/-- A maximal nonempty `p`-run followed by a non-`p` character (or the
end) collapses to a single space. -/
theorem collapseRuns_run (p : Char → Bool) :
    ∀ (a : List Char), a ≠ [] → (∀ c ∈ a, p c = true) →
      ∀ (u : List Char), (∀ c, u.head? = some c → p c = false) →
        collapseRuns p (a ++ u) = ' ' :: collapseRuns p u := by
  intro a
  induction a with
  | nil =>
    intro h
    cases h rfl
  | cons c a' ih =>
    intro _ hall u hu
    have hc : p c = true := hall c (by simp)
    cases a' with
    | nil =>
      cases u with
      | nil => simp [collapseRuns, hc]
      | cons e t =>
        have he : p e = false := hu e rfl
        simp [collapseRuns, hc, he]
    | cons d a'' =>
      have hd : p d = true := hall d (by simp)
      show collapseRuns p (c :: d :: (a'' ++ u)) = ' ' :: collapseRuns p u
      have h1 : collapseRuns p (c :: d :: (a'' ++ u)) =
          collapseRuns p (d :: (a'' ++ u)) := by
        simp [collapseRuns, hc, hd]
      rw [h1]
      exact ih (by simp) (fun e he => hall e (by simp [he])) u hu

/-- A nonempty mixed run of dots/underscores/hyphens/whitespace becomes,
after the `[._-]+` substitution, a nonempty whitespace run. -/
theorem collapseDots_mixed_run :
    ∀ (a : List Char), a ≠ [] → (∀ c ∈ a, isSepAll c = true) →
      ∀ (u : List Char), (∀ c, u.head? = some c → isDotSep c = false) →
        ∃ w, w ≠ [] ∧ (∀ c ∈ w, isSpacePy c = true) ∧
          collapseRuns isDotSep (a ++ u) = w ++ collapseRuns isDotSep u := by
  intro a
  induction a with
  | nil =>
    intro h
    cases h rfl
  | cons c a' ih =>
    intro _ hall u hu
    rcases hdot : isDotSep c with _ | _
    · have hcs : isSpacePy c = true := not_dot_of_sepAll (hall c (by simp)) hdot
      rw [List.cons_append, collapseRuns_cons_neg isDotSep hdot]
      cases a' with
      | nil => exact ⟨[c], by simp, by simp [hcs], rfl⟩
      | cons d a'' =>
        obtain ⟨w', hw1, hw2, hw3⟩ :=
          ih (by simp) (fun e he => hall e (by simp [he])) u hu
        refine ⟨c :: w', by simp, ?_, ?_⟩
        · intro e he
          rcases List.mem_cons.mp he with rfl | he
          · exact hcs
          · exact hw2 e he
        · rw [hw3]
          rfl
    · cases a' with
      | nil =>
        exact ⟨[' '], by simp, by decide,
          collapseRuns_run isDotSep [c] (by simp) (by simp [hdot]) u hu⟩
      | cons d a'' =>
        rcases hd : isDotSep d with _ | _
        · obtain ⟨w', hw1, hw2, hw3⟩ :=
            ih (by simp) (fun e he => hall e (by simp [he])) u hu
          refine ⟨' ' :: w', by simp, ?_, ?_⟩
          · intro e he
            rcases List.mem_cons.mp he with rfl | he
            · rfl
            · exact hw2 e he
          · show collapseRuns isDotSep (c :: d :: (a'' ++ u)) = _
            have h1 : collapseRuns isDotSep (c :: d :: (a'' ++ u)) =
                ' ' :: collapseRuns isDotSep (d :: (a'' ++ u)) := by
              simp [collapseRuns, hdot, hd]
            rw [h1]
            exact congrArg (List.cons ' ') hw3
        · obtain ⟨w', hw1, hw2, hw3⟩ :=
            ih (by simp) (fun e he => hall e (by simp [he])) u hu
          refine ⟨w', hw1, hw2, ?_⟩
          show collapseRuns isDotSep (c :: d :: (a'' ++ u)) = _
          have h1 : collapseRuns isDotSep (c :: d :: (a'' ++ u)) =
              collapseRuns isDotSep (d :: (a'' ++ u)) := by
            simp [collapseRuns, hdot, hd]
          rw [h1]
          exact hw3

/-- The `[._-]+ → ' '` substitution turns separator-run equivalence into
whitespace-run equivalence. -/
theorem collapseDots_runEquiv_aux : ∀ (n : Nat) (u v : List Char),
    u.length ≤ n → RunEquiv isSepAll u v →
    RunEquiv isSpacePy (collapseRuns isDotSep u) (collapseRuns isDotSep v) := by
  intro n
  induction n with
  | zero =>
    intro u v hlen h
    have hu : u = [] := by
      cases u with
      | nil => rfl
      | cons c t => simp at hlen
    subst hu
    rw [h.nil_inv]
    exact .nil
  | succ n ihn =>
    intro u v hlen h
    rcases h.head_cases with ⟨rfl, rfl⟩ | ⟨c, u', v', hc, rfl, rfl, h'⟩ |
      ⟨c, d, u', v', hc, hd, rfl, rfl⟩
    · exact .nil
    · have hlen' : u'.length ≤ n := by
        simp only [List.length_cons] at hlen
        omega
      rw [collapseRuns_cons_neg isDotSep (sepAll_dot hc),
        collapseRuns_cons_neg isDotSep (sepAll_dot hc)]
      exact .chr c (sepAll_space hc) (ihn u' v' hlen' h')
    · have hta : (c :: u').takeWhile isSepAll ≠ [] := by
        rw [List.takeWhile_cons, if_pos (by simp [hc])]
        simp
      have htb : (d :: v').takeWhile isSepAll ≠ [] := by
        rw [List.takeWhile_cons, if_pos (by simp [hd])]
        simp
      obtain ⟨wa, hwa1, hwa2, hwa3⟩ := collapseDots_mixed_run
        ((c :: u').takeWhile isSepAll) hta (fun e he => List.mem_takeWhile_imp he)
        ((c :: u').dropWhile isSepAll)
        (fun e he => sepAll_dot (head_dropWhile_false isSepAll _ he))
      obtain ⟨wb, hwb1, hwb2, hwb3⟩ := collapseDots_mixed_run
        ((d :: v').takeWhile isSepAll) htb (fun e he => List.mem_takeWhile_imp he)
        ((d :: v').dropWhile isSepAll)
        (fun e he => sepAll_dot (head_dropWhile_false isSepAll _ he))
      have e1 : collapseRuns isDotSep (c :: u') =
          wa ++ collapseRuns isDotSep ((c :: u').dropWhile isSepAll) := by
        conv_lhs =>
          rw [← List.takeWhile_append_dropWhile (p := isSepAll) (l := c :: u')]
        exact hwa3
      have e2 : collapseRuns isDotSep (d :: v') =
          wb ++ collapseRuns isDotSep ((d :: v').dropWhile isSepAll) := by
        conv_lhs =>
          rw [← List.takeWhile_append_dropWhile (p := isSepAll) (l := d :: v')]
        exact hwb3
      rw [e1, e2]
      refine RunEquiv.run wa wb hwa1 hwa2 hwb1 hwb2 ?_
      refine ihn _ _ ?_ h.dropWhile_self
      have h3 : (c :: u').dropWhile isSepAll = u'.dropWhile isSepAll := by
        rw [List.dropWhile_cons, if_pos (by simp [hc])]
      rw [h3]
      have h4 := (List.dropWhile_sublist (p := isSepAll) (l := u')).length_le
      simp only [List.length_cons] at hlen
      omega

theorem collapseDots_runEquiv {u v : List Char} (h : RunEquiv isSepAll u v) :
    RunEquiv isSpacePy (collapseRuns isDotSep u) (collapseRuns isDotSep v) :=
  collapseDots_runEquiv_aux u.length u v le_rfl h

/-! ### The final whitespace collapse and strip -/

theorem dropWhile_nil_all {p : Char → Bool} :
    ∀ {l : List Char}, l.dropWhile p = [] → ∀ c ∈ l, p c = true := by
  intro l
  induction l with
  | nil =>
    intro _ c hc
    simp at hc
  | cons a t ih =>
    intro h c hc
    rw [List.dropWhile_cons] at h
    split at h
    · rename_i hp
      rcases List.mem_cons.mp hc with rfl | hc
      · exact hp
      · exact ih h c hc
    · cases h

theorem dropWhile_cons_false {p : Char → Bool} {c : Char} (hc : p c = false)
    (u : List Char) : (c :: u).dropWhile p = c :: u := by
  rw [List.dropWhile_cons, if_neg (by simp [hc])]

theorem dropWhile_append_left (p : Char → Bool) :
    ∀ (α β : List Char), α.dropWhile p ≠ [] →
      (α ++ β).dropWhile p = α.dropWhile p ++ β := by
  intro α
  induction α with
  | nil =>
    intro β h
    exact absurd rfl h
  | cons a t ih =>
    intro β h
    by_cases hp : p a = true
    · rw [List.dropWhile_cons, if_pos hp] at h
      rw [List.cons_append, List.dropWhile_cons, if_pos hp, List.dropWhile_cons,
        if_pos hp]
      exact ih β h
    · rw [List.cons_append, List.dropWhile_cons, if_neg hp, List.dropWhile_cons,
        if_neg hp]
      rfl

theorem pyStrip_eq_dropEnd (u : List Char) :
    pyStrip u = dropEndWS (u.dropWhile isSpacePy) := rfl

theorem dropEndWS_ne_nil {z : List Char} {c : Char} (hc : c ∈ z)
    (hns : isSpacePy c = false) : dropEndWS z ≠ [] := by
  unfold dropEndWS
  intro h
  have h2 : z.reverse.dropWhile isSpacePy = [] := by
    have h3 := congrArg List.reverse h
    simpa using h3
  have h4 := dropWhile_nil_all h2 c (List.mem_reverse.mpr hc)
  rw [h4] at hns
  cases hns

theorem dropEndWS_append (α β : List Char) (h : dropEndWS β ≠ []) :
    dropEndWS (α ++ β) = α ++ dropEndWS β := by
  have hβ : β.reverse.dropWhile isSpacePy ≠ [] := by
    intro h2
    apply h
    unfold dropEndWS
    rw [h2]
    rfl
  unfold dropEndWS
  rw [List.reverse_append, dropWhile_append_left isSpacePy β.reverse α.reverse hβ,
    List.reverse_append, List.reverse_reverse]

theorem pyStrip_all_nonspace {u : List Char}
    (h : ∀ c ∈ u, isSpacePy c = false) : pyStrip u = u := by
  have aux : ∀ (z : List Char), (∀ c ∈ z, isSpacePy c = false) →
      z.dropWhile isSpacePy = z := by
    intro z hz
    cases z with
    | nil => rfl
    | cons a t => exact dropWhile_cons_false (hz a (by simp)) t
  unfold pyStrip
  rw [aux u h, aux u.reverse (fun c hc => h c (List.mem_reverse.mp hc)),
    List.reverse_reverse]

theorem pyStrip_cons_space {c : Char} (hc : isSpacePy c = true) (u : List Char) :
    pyStrip (c :: u) = pyStrip u := by
  unfold pyStrip
  rw [List.dropWhile_cons, if_pos (by simp [hc])]

theorem pyStrip_head_nonspace {e : Char} (he : isSpacePy e = false)
    (z : List Char) : pyStrip (e :: z) = dropEndWS (e :: z) := by
  rw [pyStrip_eq_dropEnd, dropWhile_cons_false he z]

/-- Stripping a string of the form `word ++ ' ' ++ (nonspace-headed rest)`
keeps the word and the separating space, and strips only inside the rest. -/
theorem pyStrip_word_space (wd z : List Char)
    (hwd : ∀ c ∈ wd, isSpacePy c = false) (hwdne : wd ≠ [])
    (hz : ∀ c, z.head? = some c → isSpacePy c = false) (hzne : z ≠ []) :
    pyStrip (wd ++ ' ' :: z) = wd ++ ' ' :: pyStrip z := by
  obtain ⟨c0, wd', rfl⟩ := List.exists_cons_of_ne_nil hwdne
  obtain ⟨e0, z', rfl⟩ := List.exists_cons_of_ne_nil hzne
  have he0 : isSpacePy e0 = false := hz e0 rfl
  have hdz : dropEndWS (e0 :: z') ≠ [] := dropEndWS_ne_nil (by simp) he0
  have h1 : dropEndWS (' ' :: (e0 :: z')) = ' ' :: dropEndWS (e0 :: z') := by
    have h2 := dropEndWS_append [' '] (e0 :: z') hdz
    simpa using h2
  have hlhs : pyStrip ((c0 :: wd') ++ ' ' :: (e0 :: z')) =
      dropEndWS ((c0 :: wd') ++ ' ' :: (e0 :: z')) := by
    rw [pyStrip_eq_dropEnd]
    congr 1
    rw [List.cons_append]
    exact dropWhile_cons_false (hwd c0 (by simp)) _
  rw [hlhs, dropEndWS_append (c0 :: wd') (' ' :: (e0 :: z')) (by rw [h1]; simp),
    h1, pyStrip_head_nonspace he0]

/-- Stripping `word ++ ' '` removes only the trailing space. -/
theorem pyStrip_word_trailing (wd : List Char)
    (hwd : ∀ c ∈ wd, isSpacePy c = false) (hwdne : wd ≠ []) :
    pyStrip (wd ++ [' ']) = wd := by
  obtain ⟨c0, wd', rfl⟩ := List.exists_cons_of_ne_nil hwdne
  rw [pyStrip_eq_dropEnd]
  have h1 : ((c0 :: wd') ++ [' ']).dropWhile isSpacePy = (c0 :: wd') ++ [' '] := by
    rw [List.cons_append]
    exact dropWhile_cons_false (hwd c0 (by simp)) _
  rw [h1]
  unfold dropEndWS
  rw [List.reverse_append]
  have h2 : (([' '] : List Char).reverse ++ (c0 :: wd').reverse).dropWhile isSpacePy =
      (c0 :: wd').reverse := by
    have h3 : (([' '] : List Char).reverse ++ (c0 :: wd').reverse) =
        ' ' :: (c0 :: wd').reverse := rfl
    rw [h3, List.dropWhile_cons, if_pos (by decide)]
    cases hrev : (c0 :: wd').reverse with
    | nil => rfl
    | cons r0 rt =>
      refine dropWhile_cons_false ?_ rt
      have h4 : r0 ∈ (c0 :: wd').reverse := by
        rw [hrev]
        simp
      exact hwd r0 (List.mem_reverse.mp h4)
  rw [h2, List.reverse_reverse]

theorem wordsOf_nil : wordsOf [] = [] := by
  simp [wordsOf]

theorem wordsOf_cons_space {c : Char} (hc : isSpacePy c = true)
    (rest : List Char) :
    wordsOf (c :: rest) = wordsOf (rest.dropWhile isSpacePy) := by
  simp only [wordsOf]
  rw [if_pos (by simp [hc])]

theorem wordsOf_cons_word {c : Char} (hc : isSpacePy c = false)
    (rest : List Char) :
    wordsOf (c :: rest) =
      (c :: rest.takeWhile fun d => !isSpacePy d) ::
        wordsOf (rest.dropWhile fun d => !isSpacePy d) := by
  simp only [wordsOf]
  rw [if_neg (by simp [hc])]

/-- Related strings tokenize into the same words. -/
theorem wordsOf_runEquiv_aux : ∀ (n : Nat) (u v : List Char), u.length ≤ n →
    RunEquiv isSpacePy u v → wordsOf u = wordsOf v := by
  intro n
  induction n with
  | zero =>
    intro u v hlen h
    have hu : u = [] := by
      cases u with
      | nil => rfl
      | cons c t => simp at hlen
    subst hu
    rw [h.nil_inv]
  | succ n ihn =>
    intro u v hlen h
    rcases h.head_cases with ⟨rfl, rfl⟩ | ⟨c, u', v', hc, rfl, rfl, h'⟩ |
      ⟨c, d, u', v', hc, hd, rfl, rfl⟩
    · rfl
    · rw [wordsOf_cons_word hc, wordsOf_cons_word hc]
      obtain ⟨ht, hdrel⟩ := RunEquiv.takeDrop_other
        (Q := fun d => !isSpacePy d) (fun e he => by simpa using he) h'
      rw [ht]
      congr 1
      refine ihn _ _ ?_ hdrel
      have h4 := (List.dropWhile_sublist (p := fun d => !isSpacePy d)
        (l := u')).length_le
      simp only [List.length_cons] at hlen
      omega
    · rw [wordsOf_cons_space hc, wordsOf_cons_space hd]
      refine ihn _ _ ?_ ?_
      · have h4 := (List.dropWhile_sublist (p := isSpacePy) (l := u')).length_le
        simp only [List.length_cons] at hlen
        omega
      · have h5 := h.dropWhile_self
        simpa [List.dropWhile_cons, hc, hd] using h5

/-- Canonical form: collapsing whitespace runs and stripping the ends
yields exactly the words joined by single spaces. -/
theorem stripCollapse_eq_joinWords : ∀ (n : Nat) (u : List Char), u.length ≤ n →
    pyStrip (collapseRuns isSpacePy u) = joinWords (wordsOf u) := by
  intro n
  induction n with
  | zero =>
    intro u hlen
    have hu : u = [] := by
      cases u with
      | nil => rfl
      | cons c t => simp at hlen
    subst hu
    rw [wordsOf_nil]
    rfl
  | succ n ihn =>
    intro u hlen
    cases u with
    | nil =>
      rw [wordsOf_nil]
      rfl
    | cons c u' =>
      simp only [List.length_cons] at hlen
      rcases hc : isSpacePy c with _ | _
      · -- non-space head: the first word is c :: takeWhile (non-space)
        have hwd_all : ∀ e ∈ (c :: u'.takeWhile fun d => !isSpacePy d),
            isSpacePy e = false := by
          intro e he
          rcases List.mem_cons.mp he with rfl | he
          · exact hc
          · simpa using List.mem_takeWhile_imp he
        have hcoll : collapseRuns isSpacePy (c :: u') =
            (c :: u'.takeWhile fun d => !isSpacePy d) ++
              collapseRuns isSpacePy (u'.dropWhile fun d => !isSpacePy d) := by
          conv_lhs => rw [show (c :: u' : List Char) =
            (c :: u'.takeWhile fun d => !isSpacePy d) ++
              (u'.dropWhile fun d => !isSpacePy d) from by
                rw [List.cons_append, List.takeWhile_append_dropWhile]]
          exact collapseRuns_nonsep_prefix isSpacePy _ _ hwd_all
        rw [wordsOf_cons_word hc, hcoll]
        rcases hr : u'.dropWhile (fun d => !isSpacePy d) with _ | ⟨d, r'⟩
        · show pyStrip ((c :: u'.takeWhile fun d => !isSpacePy d) ++ []) = _
          rw [List.append_nil, pyStrip_all_nonspace hwd_all, wordsOf_nil]
          rfl
        · have hd : isSpacePy d = true := by
            have h6 := head_dropWhile_false (fun d => !isSpacePy d) u'
              (c := d) (by rw [hr]; rfl)
            simpa using h6
          have hrtake : (d :: r').takeWhile isSpacePy ≠ [] := by
            rw [List.takeWhile_cons, if_pos (by simp [hd])]
            simp
          have hcoll2 : collapseRuns isSpacePy (d :: r') =
              ' ' :: collapseRuns isSpacePy ((d :: r').dropWhile isSpacePy) := by
            conv_lhs =>
              rw [← List.takeWhile_append_dropWhile (p := isSpacePy) (l := d :: r')]
            exact collapseRuns_run isSpacePy _ hrtake
              (fun e he => List.mem_takeWhile_imp he) _
              (fun e he => head_dropWhile_false isSpacePy _ he)
          have hdw : (d :: r').dropWhile isSpacePy = r'.dropWhile isSpacePy := by
            rw [List.dropWhile_cons, if_pos (by simp [hd])]
          rw [hcoll2, hdw, wordsOf_cons_space hd]
          rcases hr2 : r'.dropWhile isSpacePy with _ | ⟨e, r2'⟩
          · rw [wordsOf_nil]
            show pyStrip ((c :: u'.takeWhile fun d => !isSpacePy d) ++ [' ']) = _
            rw [pyStrip_word_trailing _ hwd_all (by simp)]
            rfl
          · have he : isSpacePy e = false :=
              head_dropWhile_false isSpacePy r' (c := e) (by rw [hr2]; rfl)
            have hcol3 : collapseRuns isSpacePy (e :: r2') =
                e :: collapseRuns isSpacePy r2' :=
              collapseRuns_cons_neg isSpacePy he r2'
            have hps := pyStrip_word_space
              (c :: u'.takeWhile fun d => !isSpacePy d)
              (collapseRuns isSpacePy (e :: r2')) hwd_all (by simp)
              (by
                intro x hx
                rw [hcol3] at hx
                simp only [List.head?_cons, Option.some.injEq] at hx
                subst hx
                exact he)
              (by rw [hcol3]; simp)
            rw [hps]
            have hlen2 : (e :: r2').length ≤ n := by
              have l1 : (d :: r').length ≤ u'.length := by
                rw [← hr]
                exact (List.dropWhile_sublist _).length_le
              have l2 : (e :: r2').length ≤ r'.length := by
                rw [← hr2]
                exact (List.dropWhile_sublist _).length_le
              simp only [List.length_cons] at l1 l2 ⊢
              omega
            rw [ihn (e :: r2') hlen2, wordsOf_cons_word he]
            rfl
      · -- space head
        rw [wordsOf_cons_space hc]
        have hta : (c :: u').takeWhile isSpacePy ≠ [] := by
          rw [List.takeWhile_cons, if_pos (by simp [hc])]
          simp
        have hcoll : collapseRuns isSpacePy (c :: u') =
            ' ' :: collapseRuns isSpacePy ((c :: u').dropWhile isSpacePy) := by
          conv_lhs =>
            rw [← List.takeWhile_append_dropWhile (p := isSpacePy) (l := c :: u')]
          exact collapseRuns_run isSpacePy _ hta
            (fun e he => List.mem_takeWhile_imp he) _
            (fun e he => head_dropWhile_false isSpacePy _ he)
        have hdw : (c :: u').dropWhile isSpacePy = u'.dropWhile isSpacePy := by
          rw [List.dropWhile_cons, if_pos (by simp [hc])]
        rw [hcoll, hdw, pyStrip_cons_space (by decide) _]
        refine ihn (u'.dropWhile isSpacePy) ?_
        have h4 := (List.dropWhile_sublist (p := isSpacePy) (l := u')).length_le
        omega

/-- Related strings have equal collapsed-and-stripped forms. -/
theorem stripCollapse_runEquiv {u v : List Char}
    (h : RunEquiv isSpacePy u v) :
    pyStrip (collapseRuns isSpacePy u) = pyStrip (collapseRuns isSpacePy v) := by
  rw [stripCollapse_eq_joinWords u.length u le_rfl,
    stripCollapse_eq_joinWords v.length v le_rfl,
    wordsOf_runEquiv_aux u.length u v le_rfl h]

/-- C8: `normalize_title` is invariant under letter case, separator
style, and the amount of repeated whitespace.  Two titles whose
lowercased character lists are `RunEquiv isSepAll`-related — the same
non-separator characters in the same order, with arbitrary nonempty runs
of `.`/`_`/`-`/whitespace at the same slots — normalize to the identical
string.  Titles differing only by case are related by reflexivity of the
relation; titles differing by separator style or repeated whitespace are
related through matching `run` constructors.  (Totality, determinism and
purity of the normalizer are immediate: it is a Lean function into
`String`.) -/
theorem c8_normalizer_invariance (t1 t2 : String)
    (h : RunEquiv isSepAll (t1.data.map Char.toLower) (t2.data.map Char.toLower)) :
    normalize_title t1 = normalize_title t2 := by
  have h2 := collapseDots_runEquiv h
  have h3 := scrubF_runEquiv false h2
  have h4 := stripCollapse_runEquiv h3
  show String.mk (pyStrip (collapseRuns isSpacePy (scrubBoiler
      (collapseRuns isDotSep (t1.data.map Char.toLower))))) =
    String.mk (pyStrip (collapseRuns isSpacePy (scrubBoiler
      (collapseRuns isDotSep (t2.data.map Char.toLower)))))
  have hs : ∀ s, scrubBoiler s = scrubF false s := fun s => rfl
  rw [hs, hs]
  exact congrArg String.mk h4

theorem c8_normalizer_invariance_witness :
    RunEquiv isSepAll ("A.b".data.map Char.toLower) ("a b".data.map Char.toLower) ∧
      normalize_title "A.b" = normalize_title "a b" := by
  have e1 : "A.b".data.map Char.toLower = 'a' :: '.' :: ['b'] := by decide
  have e2 : "a b".data.map Char.toLower = 'a' :: ' ' :: ['b'] := by decide
  have hd : RunEquiv isSepAll ("A.b".data.map Char.toLower)
      ("a b".data.map Char.toLower) := by
    rw [e1, e2]
    refine RunEquiv.chr 'a' (by decide) ?_
    have h3 : ('.' :: ['b'] : List Char) = ['.'] ++ ['b'] := rfl
    have h4 : (' ' :: ['b'] : List Char) = [' '] ++ ['b'] := rfl
    rw [h3, h4]
    exact RunEquiv.run ['.'] [' '] (by simp) (by decide) (by simp) (by decide)
      (RunEquiv.chr 'b' (by decide) RunEquiv.nil)
  exact ⟨hd, c8_normalizer_invariance "A.b" "a b" hd⟩

end Seedable
